import Mathlib

/-!
Verification development for the epistle repository: a CLI that packs a
filtered slice of a source tree into one LLM-friendly document.  The
definitions below shallowly embed the TypeScript source (scanner.ts,
formatter.ts, bin.ts); theorems settle the specification's claims about
them.  JavaScript strings are modelled as Lean `String` / `List Char`,
JS `Map` as an insertion-ordered association list, and token counts as
`Nat` (they are lengths of tokenizer outputs).
-/

namespace Epistle

/-! ## Path segments

The source repeatedly computes `path.split("/").filter(Boolean)` and
joins segment prefixes back with `"/"`.  We model JS `split("/")`
character by character. -/

/-- Model of JavaScript `s.split("/")` at the character level: split at
every `'/'`, keeping empty pieces, so `"a//b"` splits to `["a", "", "b"]`
and `""` splits to `[""]`. -/
def jsSplit : List Char → List (List Char)
  | [] => [[]]
  | c :: r =>
    let rest := jsSplit r
    if c = '/' then [] :: rest else (c :: rest.headI) :: rest.tail

/-- Model of JavaScript `segments.join("/")`. -/
def joinSlash : List (List Char) → List Char
  | [] => []
  | [p] => p
  | p :: q :: r => p ++ '/' :: joinSlash (q :: r)

/-- `path.split("/").filter(Boolean)`: the non-empty `'/'`-separated
segments of a path. -/
def pathSegs (p : String) : List (List Char) :=
  (jsSplit p.data).filter (fun s => !s.isEmpty)

/-- Number of non-empty path segments. -/
def numSegs (p : String) : Nat := (pathSegs p).length

/-- Pack a segment list back into a `String` key, as
`segments.slice(0, i + 1).join("/")` does. -/
def joinKey (l : List (List Char)) : String := ⟨joinSlash l⟩

/-! ## JS `Map` as an insertion-ordered association list

`Map.get` returns the value at the (unique) key; `Map.set` updates an
existing key in place (keeping its position) or appends a new one.
Iteration order is insertion order, which `Map.entries()` exposes. -/

/-- `Map.get`: the value at the first (only) entry whose key matches. -/
def mapGet : List (String × Nat) → String → Option Nat
  | [], _ => none
  | e :: r, k => if e.1 == k then some e.2 else mapGet r k

/-- `Map.get(k) ?? 0`. -/
def mapGetD (m : List (String × Nat)) (k : String) : Nat :=
  (mapGet m k).getD 0

/-- `Map.set`: update the entry with key `k` in place, else append. -/
def mapSet (m : List (String × Nat)) (k : String) (v : Nat) : List (String × Nat) :=
  match m with
  | [] => [(k, v)]
  | e :: r => if e.1 == k then (k, v) :: r else e :: mapSet r k v

/-- `dirMap.set(dirPath, (dirMap.get(dirPath) ?? 0) + stat.tokens)`. -/
def updAdd (m : List (String × Nat)) (k : String) (t : Nat) : List (String × Nat) :=
  mapSet m k (mapGetD m k + t)

/-! ## Token statistics and directory aggregation (formatter.ts) -/

/-- `FileTokenStat`: path plus token count.  Token counts are lengths of
tokenizer outputs, hence `Nat`. -/
structure FileTokenStat where
  path : String
  tokens : Nat
deriving DecidableEq

/-- The directory keys a file's tokens are charged to: joins of the
proper non-empty prefixes of its segment list, exactly as the loop
`for (let i = 0; i < segments.length - 1; i++)` produces them. -/
def ancestorKeys (p : String) : List String :=
  (List.range (numSegs p - 1)).map (fun i => joinKey ((pathSegs p).take (i + 1)))

/-- Loop body of `aggregateDirectoryTokens`: skip stats with no tokens,
otherwise add the stat's tokens to every ancestor directory key. -/
def dirStep (m : List (String × Nat)) (stat : FileTokenStat) : List (String × Nat) :=
  if stat.tokens ≤ 0 then m
  else (ancestorKeys stat.path).foldl (fun m' dirPath => updAdd m' dirPath stat.tokens) m

/-- `aggregateDirectoryTokens` from formatter.ts: every ancestor
directory of a stat with positive tokens accumulates the stat's tokens;
finally the empty-string key is set to the total over all stats. -/
def aggregateDirectoryTokens (fileTokenStats : List FileTokenStat) : List (String × Nat) :=
  let dirMap := fileTokenStats.foldl dirStep []
  let rootTotal := fileTokenStats.foldl (fun sum stat => sum + stat.tokens) 0
  mapSet dirMap "" rootTotal

/-! ## Hog report (bin.ts) -/

/-- `HogEntry` from bin.ts. -/
structure HogEntry where
  path : String
  tokens : Nat
  isDir : Bool
deriving DecidableEq

/-- `getDirDepth` from bin.ts: number of non-empty path segments
(`0` for the empty string). -/
def getDirDepth (pathStr : String) : Nat :=
  if pathStr = "" then 0 else numSegs pathStr

/-- The ordering used by `entries.sort((a, b) => b.tokens - a.tokens)`:
a stable descending sort by token count. -/
def hogGe (a b : HogEntry) : Prop := b.tokens ≤ a.tokens

instance : DecidableRel hogGe := fun _ _ => Nat.decLe _ _

instance : IsTotal HogEntry hogGe := ⟨fun a b => Nat.le_total b.tokens a.tokens⟩

instance : IsTrans HogEntry hogGe := ⟨fun _ _ _ h h' => Nat.le_trans h' h⟩

/-- `computeTopDirHogs` from bin.ts: keep map entries that are not the
synthetic root, have positive tokens and sit at the requested depth;
tag them with a trailing separator; sort descending by tokens; take the
first `limit`. -/
def computeTopDirHogs (dirTokenMap : List (String × Nat)) (depth limit : Nat) :
    List HogEntry :=
  let entries := (dirTokenMap.filter
      (fun e => !(e.1 == "") && decide (0 < e.2) && (getDirDepth e.1 == depth))).map
    (fun e => { path := e.1 ++ "/", tokens := e.2, isDir := true : HogEntry })
  (List.insertionSort hogGe entries).take limit

/-! ## Lemmas about splitting and joining paths -/

theorem jsSplit_ne_nil (s : List Char) : jsSplit s ≠ [] := by
  cases s with
  | nil => simp [jsSplit]
  | cons c r =>
    simp only [jsSplit]
    split <;> simp

theorem slash_not_mem_jsSplit (s : List Char) :
    ∀ piece ∈ jsSplit s, '/' ∉ piece := by
  induction s with
  | nil => intro piece hp; simp [jsSplit] at hp; simp [hp]
  | cons c r ih =>
    intro piece hp
    rcases hjs : jsSplit r with _ | ⟨q, rest⟩
    · exact absurd hjs (jsSplit_ne_nil r)
    have hp' : piece ∈ if c = '/' then [] :: q :: rest else (c :: q) :: rest := by
      simpa [jsSplit, hjs] using hp
    by_cases hc : c = '/'
    · rw [if_pos hc] at hp'
      rcases List.mem_cons.mp hp' with h1 | h1
      · subst h1; simp
      · exact ih piece (hjs ▸ h1)
    · rw [if_neg hc] at hp'
      rcases List.mem_cons.mp hp' with h1 | h1
      · subst h1
        intro hmem
        rcases List.mem_cons.mp hmem with h2 | h2
        · exact hc h2.symm
        · exact ih q (hjs ▸ List.mem_cons_self _ _) h2
      · exact ih piece (hjs ▸ List.mem_cons_of_mem _ h1)

theorem jsSplit_append_no_slash (a : List Char) (s : List Char) (ha : '/' ∉ a) :
    jsSplit (a ++ s) =
      (a ++ (jsSplit s).headI) :: (jsSplit s).tail := by
  induction a with
  | nil =>
    simp only [List.nil_append]
    rcases h : jsSplit s with _ | ⟨q, rest⟩
    · exact absurd h (jsSplit_ne_nil s)
    · simp [h]
  | cons c a0 iha =>
    have hc : c ≠ '/' := fun h => ha (h ▸ List.mem_cons_self _ _)
    have ha0 : '/' ∉ a0 := fun h => ha (List.mem_cons_of_mem _ h)
    have hstep : jsSplit ((c :: a0) ++ s) =
        (c :: (jsSplit (a0 ++ s)).headI) :: (jsSplit (a0 ++ s)).tail := by
      simp [jsSplit, hc]
    rw [hstep, iha ha0]
    simp

theorem jsSplit_no_slash (a : List Char) (ha : '/' ∉ a) : jsSplit a = [a] := by
  have := jsSplit_append_no_slash a [] ha
  simpa [jsSplit] using this

theorem jsSplit_joinSlash (l : List (List Char)) (hne : l ≠ [])
    (hs : ∀ p ∈ l, '/' ∉ p) : jsSplit (joinSlash l) = l := by
  induction l with
  | nil => exact absurd rfl hne
  | cons p rest ih =>
    cases rest with
    | nil => exact jsSplit_no_slash p (hs p (List.mem_cons_self _ _))
    | cons q r =>
      have hrest : jsSplit (joinSlash (q :: r)) = q :: r :=
        ih (by simp) (fun x hx => hs x (List.mem_cons_of_mem _ hx))
      have hp : '/' ∉ p := hs p (List.mem_cons_self _ _)
      have : joinSlash (p :: q :: r) = p ++ '/' :: joinSlash (q :: r) := rfl
      rw [this, jsSplit_append_no_slash p _ hp]
      have hsl : jsSplit ('/' :: joinSlash (q :: r)) =
          [] :: jsSplit (joinSlash (q :: r)) := by
        simp only [jsSplit]
        rcases h : jsSplit (joinSlash (q :: r)) with _ | ⟨x, y⟩
        · exact absurd h (jsSplit_ne_nil _)
        · simp
      rw [hsl, hrest]
      simp

/-- Splitting a joined list of non-empty, slash-free segments recovers
exactly those segments. -/
theorem pathSegs_joinKey (l : List (List Char)) (hne : l ≠ [])
    (hgood : ∀ p ∈ l, p ≠ [] ∧ '/' ∉ p) :
    pathSegs (joinKey l) = l := by
  have : (joinKey l).data = joinSlash l := rfl
  rw [pathSegs, this, jsSplit_joinSlash l hne (fun p hp => (hgood p hp).2)]
  rw [List.filter_eq_self.mpr]
  intro p hp
  simpa using (hgood p hp).1

theorem pathSegs_good (p : String) :
    ∀ s ∈ pathSegs p, s ≠ [] ∧ '/' ∉ s := by
  intro s hs
  rw [pathSegs, List.mem_filter] at hs
  exact ⟨by simpa using hs.2, slash_not_mem_jsSplit _ s hs.1⟩

theorem numSegs_joinKey_take (p : String) (j : Nat) (h1 : 0 < j)
    (h2 : j ≤ numSegs p) :
    numSegs (joinKey ((pathSegs p).take j)) = j := by
  have hlen : ((pathSegs p).take j).length = j := by
    simp only [List.length_take]
    simp only [numSegs] at h2
    omega
  have hne : (pathSegs p).take j ≠ [] := by
    intro h
    rw [h] at hlen
    simp at hlen
    omega
  have hgood : ∀ q ∈ (pathSegs p).take j, q ≠ [] ∧ '/' ∉ q :=
    fun q hq => pathSegs_good p q (List.take_subset _ _ hq)
  rw [numSegs, pathSegs_joinKey _ hne hgood, hlen]

theorem joinSlash_append_single (t : List (List Char)) (p : List Char)
    (ht : t ≠ []) :
    joinSlash (t ++ [p]) = joinSlash t ++ '/' :: p := by
  induction t with
  | nil => exact absurd rfl ht
  | cons q r ih =>
    cases r with
    | nil => rfl
    | cons q2 r2 =>
      have h1 : joinSlash ((q :: q2 :: r2) ++ [p]) =
          q ++ '/' :: joinSlash ((q2 :: r2) ++ [p]) := rfl
      have h2 : joinSlash (q :: q2 :: r2) = q ++ '/' :: joinSlash (q2 :: r2) := rfl
      rw [h1, ih (by simp), h2]
      simp

theorem joinSlash_take_length_mono (l : List (List Char)) (i j : Nat)
    (hij : i < j) (hj : j < l.length) :
    (joinSlash (l.take (i + 1))).length < (joinSlash (l.take (j + 1))).length := by
  induction j with
  | zero => omega
  | succ j0 ih =>
    have hstep : (joinSlash (l.take (j0 + 1))).length <
        (joinSlash (l.take (j0 + 2))).length := by
      have htake : l.take (j0 + 2) = (l.take (j0 + 1)).concat (l.get ⟨j0 + 1, hj⟩) := by
        have := List.take_concat_get l (j0 + 1) hj
        simpa using this.symm
      have hne : l.take (j0 + 1) ≠ [] := by
        have hpos : 0 < (l.take (j0 + 1)).length := by
          rw [List.length_take]
          omega
        exact List.length_pos.mp hpos
      rw [htake, List.concat_eq_append, joinSlash_append_single _ _ hne]
      simp
    rcases Nat.lt_succ_iff_lt_or_eq.mp hij with h | h
    · exact Nat.lt_trans (ih h (by omega)) hstep
    · subst h; exact hstep

theorem ancestorKeys_nodup (p : String) : (ancestorKeys p).Nodup := by
  rw [ancestorKeys]
  refine List.Nodup.map_on ?_ (List.nodup_range _)
  intro i hi j hj hf
  simp only [List.mem_range] at hi hj
  by_contra hne
  have key_len : ∀ a b : Nat, a < b → b < numSegs p - 1 →
      joinKey ((pathSegs p).take (a + 1)) ≠ joinKey ((pathSegs p).take (b + 1)) := by
    intro a b hab hb heq
    have hdata : joinSlash ((pathSegs p).take (a + 1)) =
        joinSlash ((pathSegs p).take (b + 1)) := congrArg String.data heq
    have hlt := joinSlash_take_length_mono (pathSegs p) a b hab
      (by simp only [numSegs] at hb ⊢; omega)
    rw [hdata] at hlt
    omega
  rcases Nat.lt_or_ge i j with h | h
  · exact key_len i j h hj hf
  · have h' : j < i := by omega
    exact key_len j i h' hi hf.symm

/-! ## `Map` lemmas -/

theorem mapGet_mapSet (m : List (String × Nat)) (k k' : String) (v : Nat) :
    mapGet (mapSet m k v) k' = if k' = k then some v else mapGet m k' := by
  induction m with
  | nil =>
    by_cases h : k' = k
    · subst h; simp [mapSet, mapGet]
    · simp [mapSet, mapGet, h, Ne.symm h]
  | cons e r ih =>
    by_cases he : e.1 = k
    · simp only [mapSet, he, beq_self_eq_true, if_true]
      by_cases h : k' = k
      · subst h; simp [mapGet]
      · simp [mapGet, h, Ne.symm h, he]
    · have hb : (e.1 == k) = false := by simp [he]
      simp only [mapSet, hb, Bool.false_eq_true, if_false]
      by_cases h2 : e.1 = k'
      · have hkk : k' ≠ k := fun hh => he (h2.trans hh)
        simp [mapGet, h2, hkk]
      · have hb2 : (e.1 == k') = false := by simp [h2]
        simp [mapGet, hb2, ih]

theorem mapGetD_mapSet (m : List (String × Nat)) (k k' : String) (v : Nat) :
    mapGetD (mapSet m k v) k' = if k' = k then v else mapGetD m k' := by
  simp only [mapGetD, mapGet_mapSet]
  by_cases h : k' = k <;> simp [h]

theorem mapGetD_updAdd (m : List (String × Nat)) (k k' : String) (t : Nat) :
    mapGetD (updAdd m k t) k' = mapGetD m k' + if k' = k then t else 0 := by
  rw [updAdd, mapGetD_mapSet]
  by_cases h : k' = k <;> simp [h]

/-! ## Aggregation lemmas for C1 -/

theorem mapGetD_foldl_updAdd (ks : List String) (m : List (String × Nat))
    (t : Nat) (k' : String) (hnd : ks.Nodup) :
    mapGetD (ks.foldl (fun m' k => updAdd m' k t) m) k' =
      mapGetD m k' + if k' ∈ ks then t else 0 := by
  induction ks generalizing m with
  | nil => simp
  | cons k0 ks0 ih =>
    simp only [List.foldl_cons]
    rw [ih _ (List.nodup_cons.mp hnd).2, mapGetD_updAdd]
    by_cases h0 : k' = k0
    · subst h0
      have hnot : k' ∉ ks0 := (List.nodup_cons.mp hnd).1
      simp [hnot]
    · by_cases hm : k' ∈ ks0 <;> simp [h0, hm, List.mem_cons]

theorem mapGetD_foldl_dirStep (stats : List FileTokenStat)
    (m : List (String × Nat)) (k' : String) :
    mapGetD (stats.foldl dirStep m) k' =
      mapGetD m k' +
        (stats.map (fun st => if k' ∈ ancestorKeys st.path then st.tokens else 0)).sum := by
  induction stats generalizing m with
  | nil => simp
  | cons st r ih =>
    simp only [List.foldl_cons, List.map_cons, List.sum_cons]
    rw [ih]
    rcases Nat.eq_zero_or_pos st.tokens with h | h
    · have hz : st.tokens ≤ 0 := by omega
      rw [dirStep, if_pos hz]
      by_cases hm : k' ∈ ancestorKeys st.path <;> simp [hm, h]
    · have hnz : ¬ st.tokens ≤ 0 := by omega
      rw [dirStep, if_neg hnz,
        mapGetD_foldl_updAdd _ _ _ _ (ancestorKeys_nodup _)]
      by_cases hm : k' ∈ ancestorKeys st.path <;> simp [hm] <;> omega

theorem foldl_add_tokens (stats : List FileTokenStat) (init : Nat) :
    stats.foldl (fun sum stat => sum + stat.tokens) init =
      init + (stats.map (fun st => st.tokens)).sum := by
  induction stats generalizing init with
  | nil => simp
  | cons st r ih => simp [ih]; omega

/-- Sum of the values stored at depth-1 directory keys of a map. -/
def d1Sum (m : List (String × Nat)) : Nat :=
  ((m.filter (fun e => numSegs e.1 == 1)).map (fun e => e.2)).sum

theorem d1Sum_cons (e : String × Nat) (r : List (String × Nat)) :
    d1Sum (e :: r) = (if numSegs e.1 = 1 then e.2 else 0) + d1Sum r := by
  by_cases h : numSegs e.1 = 1 <;> simp [d1Sum, List.filter_cons, h]

theorem d1Sum_updAdd (m : List (String × Nat)) (k : String) (t : Nat) :
    d1Sum (updAdd m k t) = d1Sum m + if numSegs k = 1 then t else 0 := by
  induction m with
  | nil =>
    simp only [updAdd, mapSet, mapGetD, mapGet, Option.getD_none, Nat.zero_add]
    by_cases h : numSegs k = 1 <;> simp [d1Sum, h]
  | cons e r ih =>
    by_cases he : e.1 = k
    · have hb : (e.1 == k) = true := by simp [he]
      have hget : mapGetD (e :: r) k = e.2 := by
        simp [mapGetD, mapGet, hb]
      simp only [updAdd, mapSet, hb, if_true, hget]
      rw [d1Sum_cons, d1Sum_cons]
      simp only [he]
      by_cases h : numSegs k = 1 <;> simp [h] <;> omega
    · have hb : (e.1 == k) = false := by simp [he]
      have hget : mapGetD (e :: r) k = mapGetD r k := by
        simp [mapGetD, mapGet, hb]
      simp only [updAdd, mapSet, hb, Bool.false_eq_true, if_false, hget]
      rw [d1Sum_cons]
      have : e :: mapSet r k (mapGetD r k + t) = e :: updAdd r k t := rfl
      rw [show (mapSet r k (mapGetD r k + t)) = updAdd r k t from rfl]
      rw [d1Sum_cons, ih]
      omega

theorem d1Sum_foldl_updAdd (ks : List String) (m : List (String × Nat)) (t : Nat) :
    d1Sum (ks.foldl (fun m' k => updAdd m' k t) m) =
      d1Sum m + (ks.map (fun k => if numSegs k = 1 then t else 0)).sum := by
  induction ks generalizing m with
  | nil => simp
  | cons k0 ks0 ih =>
    simp only [List.foldl_cons, List.map_cons, List.sum_cons]
    rw [ih, d1Sum_updAdd]
    omega

theorem sum_range_ite_zero (m t : Nat) :
    ((List.range m).map (fun i => if i = 0 then t else 0)).sum =
      if m = 0 then 0 else t := by
  induction m with
  | zero => simp
  | succ m0 ih =>
    rw [List.range_succ]
    simp only [List.map_append, List.sum_append, ih]
    by_cases h : m0 = 0 <;> simp [h]

theorem ancestorKeys_d1_sum (p : String) (t : Nat) :
    ((ancestorKeys p).map (fun k => if numSegs k = 1 then t else 0)).sum =
      if 2 ≤ numSegs p then t else 0 := by
  rw [ancestorKeys, List.map_map]
  have hcong : ∀ i ∈ List.range (numSegs p - 1),
      ((fun k => if numSegs k = 1 then t else 0) ∘
        fun i => joinKey ((pathSegs p).take (i + 1))) i =
      (fun i => if i = 0 then t else 0) i := by
    intro i hi
    simp only [List.mem_range] at hi
    simp only [Function.comp]
    rw [numSegs_joinKey_take p (i + 1) (by omega) (by omega)]
    by_cases h : i = 0 <;> simp [h]
  rw [List.map_congr_left hcong, sum_range_ite_zero]
  rcases Nat.lt_or_ge (numSegs p) 2 with h | h
  · have hz : numSegs p - 1 = 0 := by omega
    rw [hz, if_pos rfl, if_neg (by omega)]
  · have hnz : numSegs p - 1 ≠ 0 := by omega
    rw [if_neg hnz, if_pos h]

theorem d1Sum_foldl_dirStep (stats : List FileTokenStat) (m : List (String × Nat)) :
    d1Sum (stats.foldl dirStep m) =
      d1Sum m + (stats.map (fun st => if 2 ≤ numSegs st.path then st.tokens else 0)).sum := by
  induction stats generalizing m with
  | nil => simp
  | cons st r ih =>
    simp only [List.foldl_cons, List.map_cons, List.sum_cons]
    rw [ih]
    rcases Nat.eq_zero_or_pos st.tokens with h | h
    · have hz : st.tokens ≤ 0 := by omega
      rw [dirStep, if_pos hz]
      simp [h]
    · have hnz : ¬ st.tokens ≤ 0 := by omega
      rw [dirStep, if_neg hnz, d1Sum_foldl_updAdd, ancestorKeys_d1_sum]
      omega

theorem d1Sum_mapSet_not_depth1 (m : List (String × Nat)) (k : String) (v : Nat)
    (hk : numSegs k ≠ 1) : d1Sum (mapSet m k v) = d1Sum m := by
  induction m with
  | nil => simp [mapSet, d1Sum, hk]
  | cons e r ih =>
    by_cases he : e.1 = k
    · have hb : (e.1 == k) = true := by simp [he]
      simp only [mapSet, hb, if_true]
      rw [d1Sum_cons, d1Sum_cons]
      simp [he, hk]
    · have hb : (e.1 == k) = false := by simp [he]
      simp only [mapSet, hb, Bool.false_eq_true, if_false]
      rw [d1Sum_cons, d1Sum_cons, ih]

theorem sum_split_depth (stats : List FileTokenStat) :
    (stats.map (fun st => if 2 ≤ numSegs st.path then st.tokens else 0)).sum +
      (stats.map (fun st => if numSegs st.path ≤ 1 then st.tokens else 0)).sum =
    (stats.map (fun st => st.tokens)).sum := by
  induction stats with
  | nil => simp
  | cons st r ih =>
    simp only [List.map_cons, List.sum_cons]
    rcases Nat.lt_or_ge (numSegs st.path) 2 with h | h
    · have h1 : numSegs st.path ≤ 1 := by omega
      have h2 : ¬ 2 ≤ numSegs st.path := by omega
      simp only [if_pos h1, if_neg h2]
      omega
    · have h1 : ¬ numSegs st.path ≤ 1 := by omega
      simp only [if_pos h, if_neg h1]
      omega

/-- The "file transitively beneath directory" relation, in segment
terms: `dirKey` is the join of a proper non-empty prefix of the file's
segment list. -/
def isBeneath (dirKey filePath : String) : Bool :=
  (List.range (numSegs filePath)).any
    (fun j => decide (0 < j) && (dirKey == joinKey ((pathSegs filePath).take j)))

theorem isBeneath_iff_mem_ancestorKeys (k p : String) :
    isBeneath k p = true ↔ k ∈ ancestorKeys p := by
  simp only [isBeneath, ancestorKeys, List.any_eq_true, List.mem_range,
    Bool.and_eq_true, decide_eq_true_eq, beq_iff_eq, List.mem_map]
  constructor
  · rintro ⟨j, hj, hpos, rfl⟩
    refine ⟨j - 1, by omega, ?_⟩
    rw [show j - 1 + 1 = j from by omega]
  · rintro ⟨i, hi, rfl⟩
    exact ⟨i + 1, by omega, by omega, rfl⟩

/-- C1: in the map returned by `aggregateDirectoryTokens`, the
empty-string key holds the sum of the token counts of all stats; the sum
of the values recorded at depth-1 directory keys plus the token counts
of stats whose path has no directory component equals that root value;
and every non-root key's value equals the sum of the token counts of
the stats transitively beneath that directory. -/
theorem aggregateDirectoryTokens_sums (stats : List FileTokenStat) :
    mapGetD (aggregateDirectoryTokens stats) "" = (stats.map (fun st => st.tokens)).sum
    ∧ d1Sum (aggregateDirectoryTokens stats)
        + (stats.map (fun st => if numSegs st.path ≤ 1 then st.tokens else 0)).sum
      = mapGetD (aggregateDirectoryTokens stats) ""
    ∧ ∀ k, k ≠ "" →
        mapGetD (aggregateDirectoryTokens stats) k
          = (stats.map (fun st => if isBeneath k st.path then st.tokens else 0)).sum := by
  have hagg : aggregateDirectoryTokens stats =
      mapSet (stats.foldl dirStep []) ""
        (stats.foldl (fun sum stat => sum + stat.tokens) 0) := rfl
  have hroot : mapGetD (aggregateDirectoryTokens stats) ""
      = (stats.map (fun st => st.tokens)).sum := by
    rw [hagg, mapGetD_mapSet, if_pos rfl, foldl_add_tokens, Nat.zero_add]
  refine ⟨hroot, ?_, ?_⟩
  · rw [hroot, hagg, d1Sum_mapSet_not_depth1 _ _ _ (by decide), d1Sum_foldl_dirStep]
    rw [show d1Sum [] = 0 from rfl, Nat.zero_add, sum_split_depth]
  · intro k hk
    rw [hagg, mapGetD_mapSet, if_neg hk, mapGetD_foldl_dirStep]
    rw [show mapGetD [] k = 0 from rfl, Nat.zero_add]
    congr 1
    apply List.map_congr_left
    intro st _
    by_cases hm : k ∈ ancestorKeys st.path
    · rw [if_pos hm, if_pos ((isBeneath_iff_mem_ancestorKeys k st.path).mpr hm)]
    · rw [if_neg hm,
        if_neg (fun hb => hm ((isBeneath_iff_mem_ancestorKeys k st.path).mp hb))]

/-- Witness for C1 at a concrete stat list and directory key `"a"`. -/
theorem aggregateDirectoryTokens_sums_witness :
    ("a" : String) ≠ ""
    ∧ mapGetD (aggregateDirectoryTokens
        [⟨"a/x.ts", 3⟩, ⟨"a/b/y.ts", 4⟩, ⟨"z.ts", 5⟩]) "a"
      = ([⟨"a/x.ts", 3⟩, ⟨"a/b/y.ts", 4⟩, (⟨"z.ts", 5⟩ : FileTokenStat)].map
          (fun st => if isBeneath "a" st.path then st.tokens else 0)).sum
    ∧ mapGetD (aggregateDirectoryTokens
        [⟨"a/x.ts", 3⟩, ⟨"a/b/y.ts", 4⟩, ⟨"z.ts", 5⟩]) "a" = 7 :=
  ⟨by decide,
    (aggregateDirectoryTokens_sums
      [⟨"a/x.ts", 3⟩, ⟨"a/b/y.ts", 4⟩, ⟨"z.ts", 5⟩]).2.2 "a" (by decide),
    by decide⟩

/-- C6: for every `DirectoryTokenMap` and explicit depth `d`, the
dirs-mode hog report contains only entries backed by non-root map keys
with exactly `d` non-empty path segments and positive tokens, each path
extended with a trailing separator; the report is sorted by descending
token count and holds at most 5 entries. -/
theorem computeTopDirHogs_spec (m : List (String × Nat)) (d : Nat) :
    (∀ e ∈ computeTopDirHogs m d 5, ∃ p v, (p, v) ∈ m ∧ p ≠ "" ∧ 0 < v ∧
        getDirDepth p = d ∧ e.path = p ++ "/" ∧ e.tokens = v ∧ e.isDir = true)
    ∧ (computeTopDirHogs m d 5).Sorted hogGe
    ∧ (computeTopDirHogs m d 5).length ≤ 5 := by
  refine ⟨?_, ?_, ?_⟩
  · intro e he
    have h1 : e ∈ List.insertionSort hogGe
        ((m.filter (fun e => !(e.1 == "") && decide (0 < e.2)
            && (getDirDepth e.1 == d))).map
          (fun e => { path := e.1 ++ "/", tokens := e.2, isDir := true : HogEntry })) :=
      List.take_subset _ _ he
    have h2 := (List.perm_insertionSort hogGe _).mem_iff.mp h1
    rcases List.mem_map.mp h2 with ⟨pv, hpv, rfl⟩
    rcases List.mem_filter.mp hpv with ⟨hmem, hcond⟩
    simp only [Bool.and_eq_true, beq_iff_eq, bne_iff_ne, decide_eq_true_eq,
      Bool.not_eq_true', beq_eq_false_iff_ne, ne_eq] at hcond
    exact ⟨pv.1, pv.2, hmem, hcond.1.1, hcond.1.2, hcond.2, rfl, rfl, rfl⟩
  · exact List.Pairwise.sublist (List.take_sublist _ _)
      (List.sorted_insertionSort hogGe _)
  · exact List.length_take_le _ _

/-- Witness for C6 at a concrete map and depth 1. -/
theorem computeTopDirHogs_spec_witness :
    ∃ p v, (p, v) ∈ [("", 100), ("a", 0), ("b", 7), ("a/b", 3)] ∧ p ≠ "" ∧ 0 < v ∧
      getDirDepth p = 1 ∧ (⟨"b/", 7, true⟩ : HogEntry).path = p ++ "/" ∧
      (⟨"b/", 7, true⟩ : HogEntry).tokens = v ∧
      (⟨"b/", 7, true⟩ : HogEntry).isDir = true :=
  (computeTopDirHogs_spec [("", 100), ("a", 0), ("b", 7), ("a/b", 3)] 1).1
    ⟨"b/", 7, true⟩ (by decide)

/-! ## Scanner (scanner.ts)

The walk itself is I/O; we abstract the filesystem as a list of
discovered entries (what `fast-glob` returns after its built-in ignore
list), each carrying the size `stat` reports, the verdict of the
`isBinaryFile` content sniff, and the text `readFile` would decode.
Symlink resolution and absolute paths are I/O-level details that do not
affect any claim and are omitted. -/

/-- A file discovered under the root, before ignore filtering and
classification. -/
structure FsEntry where
  relPath : String
  sizeBytes : Nat
  isBinary : Bool
  content : String
deriving DecidableEq

/-- `ScannedFile` from scanner.ts (`absolutePath` omitted: pure I/O
detail). `content` is present only for non-binary files within the size
limit. -/
structure ScannedFile where
  path : String
  sizeBytes : Nat
  isBinary : Bool
  isOversized : Bool
  content : Option String
deriving DecidableEq

/-- `DEFAULT_MAX_FILE_SIZE_BYTES = 100 * 1024`. -/
def DEFAULT_MAX_FILE_SIZE_BYTES : Nat := 100 * 1024

/-- The classification of one surviving entry, from the tail of the
`scanProject` loop: binary files carry no content; text files above the
size threshold are flagged oversized with content omitted; all other
text files retain their full decoded content. -/
def classifyFile (maxFileSizeBytes : Nat) (e : FsEntry) : ScannedFile :=
  if e.isBinary then
    { path := e.relPath, sizeBytes := e.sizeBytes, isBinary := true,
      isOversized := false, content := none }
  else if e.sizeBytes > maxFileSizeBytes then
    { path := e.relPath, sizeBytes := e.sizeBytes, isBinary := false,
      isOversized := true, content := none }
  else
    { path := e.relPath, sizeBytes := e.sizeBytes, isBinary := false,
      isOversized := false, content := some e.content }

/-- Modelled from the spec: one ignore rule — a pattern whose glob
semantics are delegated to an external matcher (abstracted as a
predicate on paths) plus a negation flag (`!`-prefixed patterns and
force-include patterns).  The rule list for the current scanner is not
under src/; only its caller is. -/
structure IgnoreRule where
  matchesPath : String → Bool
  negated : Bool

/-- Modelled from the spec: the ignore predicate evaluates the ordered
rule list with last-match-wins, negation-aware semantics; a path with no
matching rule is not ignored. -/
def isIgnored (rules : List IgnoreRule) (p : String) : Bool :=
  match (rules.filter (fun r => r.matchesPath p)).getLast? with
  | none => false
  | some r => !r.negated

/-- Modelled from the spec: exclude sources (built-in exclusions, ignore
files, caller excludes) come first, in order; force-include patterns are
appended after all exclude sources as negations. -/
def buildRules (excludePats includePats : List (String → Bool)) : List IgnoreRule :=
  excludePats.map (fun m => { matchesPath := m, negated := false })
    ++ includePats.map (fun m => { matchesPath := m, negated := true })

/-- Ordering on scanned files used by
`files.sort((a, b) => a.path.localeCompare(b.path))`, modelled as the
lexicographic order on paths. -/
def fileLe (a b : ScannedFile) : Prop := a.path ≤ b.path

instance : DecidableRel fileLe := fun a b => inferInstanceAs (Decidable (a.path ≤ b.path))

instance : IsTotal ScannedFile fileLe := ⟨fun a b => le_total a.path b.path⟩

instance : IsTrans ScannedFile fileLe := ⟨fun _ _ _ h h' => le_trans h h'⟩

/-- Result of the scan operation of the current scanner:
`{files, ignoredCount}` (the caller in bin.ts destructures
`{files, ignoredEntries}`); modelled from the spec where the scanner
body itself is not under src/. -/
structure ScanResult where
  files : List ScannedFile
  ignoredCount : Nat
deriving DecidableEq

/-- `scanProject`: drop entries rejected by the ignore predicate
(counting them), classify the survivors, and return them sorted by
path. -/
def scanProject (entries : List FsEntry) (rules : List IgnoreRule)
    (maxFileSizeBytes : Nat) : ScanResult :=
  let kept := entries.filter (fun e => !isIgnored rules e.relPath)
  { files := List.insertionSort fileLe (kept.map (classifyFile maxFileSizeBytes)),
    ignoredCount := entries.countP (fun e => isIgnored rules e.relPath) }

theorem classifyFile_mem_files (entries : List FsEntry) (rules : List IgnoreRule)
    (maxFileSizeBytes : Nat) (e : FsEntry) (he : e ∈ entries)
    (hkeep : isIgnored rules e.relPath = false) :
    classifyFile maxFileSizeBytes e ∈ (scanProject entries rules maxFileSizeBytes).files := by
  apply (List.perm_insertionSort fileLe _).mem_iff.mpr
  exact List.mem_map.mpr ⟨e, List.mem_filter.mpr ⟨he, by simp [hkeep]⟩, rfl⟩

/-- C4: a non-binary, non-ignored entry of size exactly
`maxFileSizeBytes` appears in the scan output with its full content and
`isOversized = false`; one byte larger (or more) it appears flagged
oversized with content omitted. -/
theorem scanProject_size_boundary (entries : List FsEntry) (rules : List IgnoreRule)
    (maxFileSizeBytes : Nat) (e : FsEntry) (he : e ∈ entries)
    (hkeep : isIgnored rules e.relPath = false) (hbin : e.isBinary = false) :
    (e.sizeBytes = maxFileSizeBytes →
      classifyFile maxFileSizeBytes e ∈ (scanProject entries rules maxFileSizeBytes).files
      ∧ (classifyFile maxFileSizeBytes e).isOversized = false
      ∧ (classifyFile maxFileSizeBytes e).content = some e.content)
    ∧ (maxFileSizeBytes + 1 ≤ e.sizeBytes →
      classifyFile maxFileSizeBytes e ∈ (scanProject entries rules maxFileSizeBytes).files
      ∧ (classifyFile maxFileSizeBytes e).isOversized = true
      ∧ (classifyFile maxFileSizeBytes e).content = none) := by
  constructor
  · intro hsize
    refine ⟨classifyFile_mem_files entries rules maxFileSizeBytes e he hkeep, ?_, ?_⟩
    · simp [classifyFile, hbin, hsize]
    · simp [classifyFile, hbin, hsize]
  · intro hsize
    have hgt : e.sizeBytes > maxFileSizeBytes := by omega
    refine ⟨classifyFile_mem_files entries rules maxFileSizeBytes e he hkeep, ?_, ?_⟩
    · simp [classifyFile, hbin, hgt]
    · simp [classifyFile, hbin, hgt]

/-- Witness for C4: a 5-byte file at threshold 5 is inlined; the same
file at threshold 4 is flagged oversized. -/
theorem scanProject_size_boundary_witness :
    (classifyFile 5 ⟨"a.ts", 5, false, "hello"⟩ ∈
        (scanProject [⟨"a.ts", 5, false, "hello"⟩] [] 5).files
      ∧ (classifyFile 5 ⟨"a.ts", 5, false, "hello"⟩).isOversized = false
      ∧ (classifyFile 5 ⟨"a.ts", 5, false, "hello"⟩).content = some "hello")
    ∧ (classifyFile 4 ⟨"a.ts", 5, false, "hello"⟩ ∈
        (scanProject [⟨"a.ts", 5, false, "hello"⟩] [] 4).files
      ∧ (classifyFile 4 ⟨"a.ts", 5, false, "hello"⟩).isOversized = true
      ∧ (classifyFile 4 ⟨"a.ts", 5, false, "hello"⟩).content = none) :=
  ⟨(scanProject_size_boundary [⟨"a.ts", 5, false, "hello"⟩] [] 5
      ⟨"a.ts", 5, false, "hello"⟩ (by decide) (by decide) (by decide)).1 rfl,
    (scanProject_size_boundary [⟨"a.ts", 5, false, "hello"⟩] [] 4
      ⟨"a.ts", 5, false, "hello"⟩ (by decide) (by decide) (by decide)).2 (by decide)⟩

/-- C8: in the scan output, content is present iff the file is neither
binary nor oversized. -/
theorem scanProject_content_iff (entries : List FsEntry) (rules : List IgnoreRule)
    (maxFileSizeBytes : Nat) :
    ∀ f ∈ (scanProject entries rules maxFileSizeBytes).files,
      f.content.isSome = (!f.isBinary && !f.isOversized) := by
  intro f hf
  have h1 := (List.perm_insertionSort fileLe _).mem_iff.mp hf
  rcases List.mem_map.mp h1 with ⟨e, _, rfl⟩
  by_cases hb : e.isBinary
  · simp [classifyFile, hb]
  · by_cases hs : e.sizeBytes > maxFileSizeBytes
    · simp [classifyFile, hb, hs]
    · simp [classifyFile, hb, hs]

/-- Witness for C8 at a concrete scan. -/
theorem scanProject_content_iff_witness :
    (⟨"b.png", 9, true, false, none⟩ : ScannedFile).content.isSome =
      (!(⟨"b.png", 9, true, false, none⟩ : ScannedFile).isBinary
        && !(⟨"b.png", 9, true, false, none⟩ : ScannedFile).isOversized) :=
  scanProject_content_iff [⟨"b.png", 9, true, ""⟩] [] 100
    ⟨"b.png", 9, true, false, none⟩ (by decide)

/-- C5: the scan result's `files` list is sorted by path, `ignoredCount`
counts exactly the entries rejected by the ignore predicate, and
force-include patterns — appended after all exclude sources as
negations — override every exclude for the paths they match. -/
theorem scanProject_scan_contract (entries : List FsEntry)
    (excludePats includePats : List (String → Bool)) (maxFileSizeBytes : Nat) :
    ((scanProject entries (buildRules excludePats includePats) maxFileSizeBytes).files).Sorted fileLe
    ∧ (scanProject entries (buildRules excludePats includePats) maxFileSizeBytes).ignoredCount
        = entries.countP (fun e => isIgnored (buildRules excludePats includePats) e.relPath)
    ∧ ∀ p, includePats.any (fun m => m p) = true →
        isIgnored (buildRules excludePats includePats) p = false := by
  refine ⟨List.sorted_insertionSort fileLe _, rfl, ?_⟩
  intro p hp
  rcases List.any_eq_true.mp hp with ⟨m, hm, hmp⟩
  rw [isIgnored, buildRules, List.filter_append]
  have hne : (includePats.map (fun m => { matchesPath := m, negated := true : IgnoreRule })).filter
      (fun r => r.matchesPath p) ≠ [] := by
    intro hnil
    have : ({ matchesPath := m, negated := true } : IgnoreRule) ∈
        (includePats.map (fun m => { matchesPath := m, negated := true : IgnoreRule })).filter
          (fun r => r.matchesPath p) :=
      List.mem_filter.mpr ⟨List.mem_map.mpr ⟨m, hm, rfl⟩, hmp⟩
    rw [hnil] at this
    exact absurd this (List.not_mem_nil _)
  rw [List.getLast?_append_of_ne_nil _ hne]
  rcases hlast : ((includePats.map
      (fun m => { matchesPath := m, negated := true : IgnoreRule })).filter
        (fun r => r.matchesPath p)).getLast? with _ | r
  · exact absurd (List.getLast?_eq_none_iff.mp hlast) hne
  · have hrmem : r ∈ (includePats.map
        (fun m => { matchesPath := m, negated := true : IgnoreRule })).filter
          (fun r => r.matchesPath p) := by
      have hx : r ∈ ((includePats.map
          (fun m => { matchesPath := m, negated := true : IgnoreRule })).filter
            (fun r => r.matchesPath p)).getLast? := by rw [hlast]; rfl
      rcases List.mem_getLast?_eq_getLast hx with ⟨hh, hr⟩
      rw [hr]
      exact List.getLast_mem hh
    have hneg : r.negated = true := by
      rcases List.mem_map.mp (List.mem_filter.mp hrmem).1 with ⟨m', _, rfl⟩
      rfl
    rw [hlast]
    simp [hneg]

/-- Witness for C5: an include pattern overrides a matching exclude. -/
theorem scanProject_scan_contract_witness :
    [fun s => s == "keep.png"].any (fun m => m "keep.png") = true ∧
    isIgnored (buildRules [fun s => String.endsWith s ".png"]
      [fun s => s == "keep.png"]) "keep.png" = false :=
  ⟨rfl,
    (scanProject_scan_contract [] [fun s => String.endsWith s ".png"]
      [fun s => s == "keep.png"] 100).2.2 "keep.png" rfl⟩

/-! ## Secret redaction (formatter.ts)

`redactSecrets` runs four global regex replaces in sequence over the
running result, counting every match:
`/sk-[A-Za-z0-9]{16,}/g`, `/AKIA[0-9A-Z]{16}/g`,
`/AIza[0-9A-Za-z\-_]{20,}/g` and
`/\b[A-Za-z0-9-_]{20,}\.[A-Za-z0-9-_]{20,}\.[A-Za-z0-9-_]{20,}\b/g`.
Each regex is compiled to an executable leftmost-match function on
character lists; `redactGo` models `String.replace` with a global regex
(non-overlapping matches found left to right over the input string,
each replaced by the fixed placeholder). -/

/-- `[A-Za-z0-9]`. -/
def isAlnumChar (c : Char) : Bool := c.isAlpha || c.isDigit

/-- `[0-9A-Z]`. -/
def isUpperDigit (c : Char) : Bool := ('A' ≤ c && c ≤ 'Z') || c.isDigit

/-- `[A-Za-z0-9-_]` (also `[0-9A-Za-z\-_]`, the same set). -/
def isJwtClass (c : Char) : Bool := c.isAlpha || c.isDigit || c == '-' || c == '_'

/-- `\w`, the word characters that regex `\b` boundaries test. -/
def isWordChar (c : Char) : Bool := c.isAlpha || c.isDigit || c == '_'

/-- Characters any of the four patterns can consume. -/
def isScanChar (c : Char) : Bool := isJwtClass c || c == '.'

/-- Word status of an optional context character (`none` = string edge,
non-word). -/
def isWordOpt : Option Char → Bool
  | none => false
  | some c => isWordChar c

/-- Length of the longest prefix whose characters all satisfy `p` (the
span a greedy character-class quantifier consumes). -/
def runLen (p : Char → Bool) : List Char → Nat
  | [] => 0
  | c :: r => if p c then runLen p r + 1 else 0

/-- `/sk-[A-Za-z0-9]{16,}/` at the head of `s`: the literal `sk-`
followed by a greedy run of at least 16 alphanumerics.  Nothing follows
the quantifier, so the greedy run is the maximal alphanumeric run. -/
def tryMatchSk (_ : Option Char) (s : List Char) : Option Nat :=
  match s with
  | 's' :: 'k' :: '-' :: rest =>
    if 16 ≤ runLen isAlnumChar rest then some (3 + runLen isAlnumChar rest) else none
  | _ => none

/-- `/AKIA[0-9A-Z]{16}/` at the head of `s`: the literal `AKIA`
followed by exactly 16 uppercase alphanumerics (a run of at least 16
suffices; the quantifier consumes exactly 16). -/
def tryMatchAkia (_ : Option Char) (s : List Char) : Option Nat :=
  match s with
  | 'A' :: 'K' :: 'I' :: 'A' :: rest =>
    if 16 ≤ runLen isUpperDigit rest then some 20 else none
  | _ => none

/-- `/AIza[0-9A-Za-z\-_]{20,}/` at the head of `s`. -/
def tryMatchAiza (_ : Option Char) (s : List Char) : Option Nat :=
  match s with
  | 'A' :: 'I' :: 'z' :: 'a' :: rest =>
    if 20 ≤ runLen isJwtClass rest then some (4 + runLen isJwtClass rest) else none
  | _ => none

/-- Word status of the character at index `i` of the class run `R`;
positions past the run are non-word, because every word character
belongs to the class, so the character terminating a maximal class run
(or the string edge) is never a word character. -/
def wordAt (R : List Char) (i : Nat) : Bool :=
  match R[i]? with
  | some c => isWordChar c
  | none => false

/-- The trailing `\b` of the JWT pattern after consuming `k` characters
of the third-segment run `R`: a word/non-word boundary between the last
consumed character and the next one. -/
def jwtBnd (R : List Char) (k : Nat) : Bool :=
  wordAt R (k - 1) != wordAt R k

/-- Greedy backtracking over the third JWT segment: the largest
`20 ≤ k ≤ bound` at which the trailing boundary holds. -/
def findJwtK (R : List Char) : Nat → Option Nat
  | 0 => none
  | k + 1 => if 20 ≤ k + 1 && jwtBnd R (k + 1) then some (k + 1) else findJwtK R k

/-- Third JWT segment: a literal `'.'`, then the backtracking greedy
class run with its trailing `\b`.  Returns the consumed length. -/
def jwtSeg3 (rest2 : List Char) : Option Nat :=
  match rest2 with
  | '.' :: t3 =>
    match findJwtK (t3.takeWhile isJwtClass) (t3.takeWhile isJwtClass).length with
    | some k => some (1 + k)
    | none => none
  | _ => none

/-- Second JWT segment: a literal `'.'`, then a maximal class run of at
least 20 characters (no backtracking: the character after a maximal run
is not `'.'`), then the third segment.  Returns the consumed length. -/
def jwtSeg2 (rest1 : List Char) : Option Nat :=
  match rest1 with
  | '.' :: t2 =>
    if runLen isJwtClass t2 < 20 then none
    else
      match jwtSeg3 (t2.drop (runLen isJwtClass t2)) with
      | some m => some (1 + runLen isJwtClass t2 + m)
      | none => none
  | _ => none

/-- `/\b[A-Za-z0-9-_]{20,}\.[A-Za-z0-9-_]{20,}\.[A-Za-z0-9-_]{20,}\b/`
at the head of `s`, `prev` being the character before `s` (for the
leading `\b`).  `'.'` is outside the class, so the first two greedy
segments cannot backtrack: each must be a maximal class run of length at
least 20 followed by a literal `'.'`.  The third segment backtracks from
its maximal run down to 20 until the trailing `\b` holds. -/
def tryMatchJwt (prev : Option Char) (s : List Char) : Option Nat :=
  match s with
  | [] => none
  | c :: _ =>
    if isWordOpt prev == isWordChar c then none
    else if runLen isJwtClass s < 20 then none
    else
      match jwtSeg2 (s.drop (runLen isJwtClass s)) with
      | some m => some (runLen isJwtClass s + m)
      | none => none

/-- The fixed replacement text `"[REDACTED_SECRET]"`. -/
def PLACEHOLDER : List Char := "[REDACTED_SECRET]".data

/-- One global-regex replace pass, as `result.replace(re, () => ...)`
performs it: scan the input left to right; at each position try the
pattern; on a match emit the placeholder, count it, and resume
immediately after the matched span (the context character for the next
attempt is the last matched character, since matching happens over the
input string); otherwise emit the character and advance by one.  The
matchers never return `some 0`; `fuel ≥ s.length` suffices because every
step consumes at least one character. -/
def redactGo (tm : Option Char → List Char → Option Nat) :
    Nat → Option Char → List Char → List Char × Nat
  | _, _, [] => ([], 0)
  | 0, _, s => (s, 0)
  | fuel + 1, prev, c :: r =>
    match tm prev (c :: r) with
    | some (n + 1) =>
      let out := redactGo tm fuel (((c :: r).take (n + 1)).getLast?) ((c :: r).drop (n + 1))
      (PLACEHOLDER ++ out.1, out.2 + 1)
    | _ =>
      let out := redactGo tm fuel (some c) r
      (c :: out.1, out.2)

/-- One full pass over a string, starting at the string edge. -/
def redactPass (tm : Option Char → List Char → Option Nat) (s : List Char) :
    List Char × Nat :=
  redactGo tm s.length none s

/-- The result record of `redactSecrets`. -/
structure RedactResult where
  redacted : String
  count : Nat
deriving DecidableEq

/-- `redactSecrets` from formatter.ts: apply the four patterns in order
to the running result, accumulating the match count. -/
def redactSecrets (text : String) : RedactResult :=
  let p1 := redactPass tryMatchSk text.data
  let p2 := redactPass tryMatchAkia p1.1
  let p3 := redactPass tryMatchAiza p2.1
  let p4 := redactPass tryMatchJwt p3.1
  { redacted := ⟨p4.1⟩, count := p1.2 + p2.2 + p3.2 + p4.2 }

/-- `true` when no pattern match starts at any position of `s`, `prev`
being the character before `s`. -/
def noM (tm : Option Char → List Char → Option Nat) :
    Option Char → List Char → Bool
  | _, [] => true
  | prev, c :: r => (tm prev (c :: r)).isNone && noM tm (some c) r

/-- The maximal prefix of characters the patterns can consume. -/
def takeS (s : List Char) : List Char := s.takeWhile isScanChar

/-! ## Character-run lemmas -/

theorem runLen_le_length (p : Char → Bool) : ∀ l : List Char, runLen p l ≤ l.length := by
  intro l
  induction l with
  | nil => simp [runLen]
  | cons c r ih =>
    rw [runLen]
    by_cases hc : p c = true <;> simp [hc] <;> omega

theorem runLen_take_all (p : Char → Bool) : ∀ l : List Char,
    (l.take (runLen p l)).all p = true := by
  intro l
  induction l with
  | nil => simp
  | cons c r ih =>
    rw [runLen]
    by_cases hc : p c = true
    · simp [hc, List.take_succ_cons, ih]
    · simp [hc]

theorem runLen_ge_iff (p : Char → Bool) :
    ∀ (n : Nat) (l : List Char),
      n ≤ runLen p l ↔ n ≤ l.length ∧ (l.take n).all p = true := by
  intro n
  induction n with
  | zero => intro l; simp
  | succ m ih =>
    intro l
    cases l with
    | nil => simp [runLen]
    | cons c r =>
      by_cases hc : p c = true
      · rw [runLen]
        simp only [hc, if_true, List.take_succ_cons, List.all_cons, Bool.true_and,
          List.length_cons]
        constructor
        · intro h
          have h2 := (ih r).mp (by omega)
          exact ⟨by omega, h2.2⟩
        · rintro ⟨h1, h2⟩
          have := (ih r).mpr ⟨by omega, h2⟩
          omega
      · rw [runLen]
        simp [hc, List.take_succ_cons]

theorem runLen_append_of_lt (p : Char → Bool) :
    ∀ (xs ys : List Char), runLen p xs < xs.length →
      runLen p (xs ++ ys) = runLen p xs := by
  intro xs
  induction xs with
  | nil => intro ys h; simp [runLen] at h
  | cons c r ih =>
    intro ys h
    rw [List.cons_append, runLen, runLen]
    by_cases hc : p c = true
    · rw [runLen, if_pos hc] at h
      simp only [hc, if_true]
      rw [ih ys (by simpa using h)]
    · simp [hc]

theorem getElem?_runLen (p : Char → Bool) :
    ∀ (l : List Char), runLen p l < l.length →
      ∃ c, l[runLen p l]? = some c ∧ p c = false := by
  intro l
  induction l with
  | nil => intro h; simp [runLen] at h
  | cons c r ih =>
    intro h
    by_cases hc : p c = true
    · rw [runLen, if_pos hc] at h ⊢
      rw [List.getElem?_cons_succ]
      exact ih (by simpa using h)
    · rw [runLen, if_neg hc] at h ⊢
      exact ⟨c, List.getElem?_cons_zero, by simpa using hc⟩

theorem runLen_eq_of (p : Char → Bool) (l : List Char) (r : Nat)
    (hr : r ≤ l.length) (hall : (l.take r).all p = true)
    (hstop : ∀ c, l[r]? = some c → p c = false) : runLen p l = r := by
  have h1 : r ≤ runLen p l := (runLen_ge_iff p r l).mpr ⟨hr, hall⟩
  by_contra hne
  have h2 : r < runLen p l := by omega
  have hrl : r < l.length := lt_of_lt_of_le h2 (runLen_le_length p l)
  have hc : l[r]? = some (l.get ⟨r, hrl⟩) := by
    rw [List.getElem?_eq_getElem hrl]
    rfl
  have hmem : l.get ⟨r, hrl⟩ ∈ l.take (runLen p l) := by
    apply List.getElem?_mem (n := r)
    rw [List.getElem?_take, if_pos h2]
    exact hc
  have hp := List.all_eq_true.mp (runLen_take_all p l) _ hmem
  rw [hstop _ hc] at hp
  exact Bool.noConfusion hp

theorem prefix_takeWhile_of_take_all (p : Char → Bool) :
    ∀ (l : List Char) (m : Nat), m ≤ l.length → (l.take m).all p = true →
      l.take m <+: l.takeWhile p := by
  intro l
  induction l with
  | nil => intro m hm _; simp_all
  | cons c r ih =>
    intro m hm hall
    cases m with
    | zero => simp
    | succ m0 =>
      rw [List.take_succ_cons, List.all_cons, Bool.and_eq_true] at hall
      rw [List.take_succ_cons, List.takeWhile_cons_of_pos hall.1,
        List.cons_prefix_cons]
      exact ⟨rfl, ih m0 (by simpa using hm) hall.2⟩

theorem takeS_mono_take (u t : List Char) (m : Nat) (hm : m ≤ u.length)
    (hall : (u.take m).all isScanChar = true) (hpre : takeS u <+: takeS t) :
    t.take m = u.take m := by
  have h1 : u.take m <+: takeS u := prefix_takeWhile_of_take_all _ u m hm hall
  have h2 : u.take m <+: t :=
    (h1.trans hpre).trans (List.takeWhile_prefix _)
  have h3 : u.take m = t.take (u.take m).length := List.prefix_iff_eq_take.mp h2
  have h4 : (u.take m).length = m := by
    rw [List.length_take]
    omega
  rw [h4] at h3
  exact h3.symm

/-! ## Character-class implications -/

theorem alnum_scan (c : Char) (h : isAlnumChar c = true) : isScanChar c = true := by
  simp only [isScanChar, isJwtClass, isAlnumChar, Bool.or_eq_true] at h ⊢
  tauto

theorem upperDigit_scan (c : Char) (h : isUpperDigit c = true) : isScanChar c = true := by
  simp only [isScanChar, isJwtClass, isUpperDigit, Char.isAlpha, Char.isUpper,
    Bool.or_eq_true, Bool.and_eq_true] at h ⊢
  tauto

theorem jc_scan (c : Char) (h : isJwtClass c = true) : isScanChar c = true := by
  simp only [isScanChar, Bool.or_eq_true] at h ⊢
  tauto

theorem word_jc (c : Char) (h : isWordChar c = true) : isJwtClass c = true := by
  simp only [isWordChar, isJwtClass, Bool.or_eq_true] at h ⊢
  tauto

theorem not_jc_not_word (c : Char) (h : isJwtClass c = false) : isWordChar c = false := by
  rcases hw : isWordChar c with _ | _
  · rfl
  · rw [word_jc c hw] at h
    exact Bool.noConfusion h

/-! ## Literal-prefix-plus-run patterns: match facts transfer along
scan-prefix extensions -/

/-- If `u` starts with scan-class literals followed by a `q`-run of at
least `k` characters, and `u`'s scan prefix is a prefix of `t`'s, then
`t` starts the same way: the whole witnessing span sits inside the scan
prefixes. -/
theorem lit_run_transfer (lits : List Char) (q : Char → Bool) (k : Nat)
    (hq : ∀ x, q x = true → isScanChar x = true)
    (hlits : lits.all isScanChar = true)
    (u t : List Char) (hpre : takeS u <+: takeS t)
    (rest : List Char) (hu : u = lits ++ rest) (hrun : k ≤ runLen q rest) :
    ∃ rt, t = lits ++ rt ∧ k ≤ runLen q rt := by
  have h1 := (runLen_ge_iff q k rest).mp hrun
  have hmlen : lits.length + k ≤ u.length := by
    subst hu
    simp only [List.length_append]
    omega
  have hall : (u.take (lits.length + k)).all isScanChar = true := by
    subst hu
    rw [List.take_append, List.all_append, Bool.and_eq_true]
    refine ⟨hlits, ?_⟩
    rw [List.all_eq_true]
    intro x hx
    exact hq x (List.all_eq_true.mp h1.2 x hx)
  have heq : t.take (lits.length + k) = u.take (lits.length + k) :=
    takeS_mono_take u t _ hmlen hall hpre
  have htlen : lits.length + k ≤ t.length := by
    have hlen := congrArg List.length heq
    simp only [List.length_take] at hlen
    omega
  have htakeL : t.take lits.length = lits := by
    have h5 : t.take lits.length = (t.take (lits.length + k)).take lits.length := by
      rw [List.take_take, Nat.min_def, if_pos (by omega)]
    rw [heq, hu, List.take_append, List.take_left] at h5
    exact h5
  refine ⟨t.drop lits.length, ?_, ?_⟩
  · conv_lhs => rw [← List.take_append_drop lits.length t]
    rw [htakeL]
  · apply (runLen_ge_iff q k _).mpr
    constructor
    · rw [List.length_drop]
      omega
    · have hslice : (t.drop lits.length).take k = rest.take k := by
        rw [List.take_drop, heq, hu, List.take_append]
        exact List.drop_left _ _
      rw [hslice]
      exact h1.2

theorem tryMatchSk_pos_le (p : Option Char) (s : List Char) (n : Nat)
    (h : tryMatchSk p s = some n) : 1 ≤ n ∧ n ≤ s.length := by
  rw [tryMatchSk.eq_def] at h
  split at h
  next rest =>
    split at h
    next hge =>
      have hn : 3 + runLen isAlnumChar rest = n := by
        injection h
      have := runLen_le_length isAlnumChar rest
      simp only [List.length_cons]
      omega
    next => exact absurd h (by simp)
  next => exact absurd h (by simp)

theorem tryMatchAkia_pos_le (p : Option Char) (s : List Char) (n : Nat)
    (h : tryMatchAkia p s = some n) : 1 ≤ n ∧ n ≤ s.length := by
  rw [tryMatchAkia.eq_def] at h
  split at h
  next rest =>
    split at h
    next hge =>
      have hn : 20 = n := by injection h
      have h16 := (runLen_ge_iff isUpperDigit 16 rest).mp hge
      simp only [List.length_cons]
      omega
    next => exact absurd h (by simp)
  next => exact absurd h (by simp)

theorem tryMatchAiza_pos_le (p : Option Char) (s : List Char) (n : Nat)
    (h : tryMatchAiza p s = some n) : 1 ≤ n ∧ n ≤ s.length := by
  rw [tryMatchAiza.eq_def] at h
  split at h
  next rest =>
    split at h
    next hge =>
      have hn : 4 + runLen isJwtClass rest = n := by
        injection h
      have := runLen_le_length isJwtClass rest
      simp only [List.length_cons]
      omega
    next => exact absurd h (by simp)
  next => exact absurd h (by simp)

theorem tryMatchSk_transfer (p : Option Char) (u t : List Char)
    (hpre : takeS u <+: takeS t) (ht : tryMatchSk p t = none) :
    tryMatchSk p u = none := by
  rcases hu : tryMatchSk p u with _ | n
  · rfl
  exfalso
  rw [tryMatchSk.eq_def] at hu
  split at hu
  next rest =>
    split at hu
    next hge =>
      rcases lit_run_transfer ['s', 'k', '-'] isAlnumChar 16 alnum_scan (by decide)
          _ t hpre rest rfl hge with ⟨rt, htt, hrt⟩
      rw [htt] at ht
      simp only [List.cons_append, List.nil_append] at ht
      have ht2 : (if 16 ≤ runLen isAlnumChar rt then
          some (3 + runLen isAlnumChar rt) else (none : Option Nat)) = none := ht
      rw [if_pos hrt] at ht2
      exact Option.noConfusion ht2
    next => exact absurd hu (by simp)
  next => exact absurd hu (by simp)

theorem tryMatchAkia_transfer (p : Option Char) (u t : List Char)
    (hpre : takeS u <+: takeS t) (ht : tryMatchAkia p t = none) :
    tryMatchAkia p u = none := by
  rcases hu : tryMatchAkia p u with _ | n
  · rfl
  exfalso
  rw [tryMatchAkia.eq_def] at hu
  split at hu
  next rest =>
    split at hu
    next hge =>
      rcases lit_run_transfer ['A', 'K', 'I', 'A'] isUpperDigit 16 upperDigit_scan
          (by decide) _ t hpre rest rfl hge with ⟨rt, htt, hrt⟩
      rw [htt] at ht
      simp only [List.cons_append, List.nil_append] at ht
      have ht2 : (if 16 ≤ runLen isUpperDigit rt then
          some 20 else (none : Option Nat)) = none := ht
      rw [if_pos hrt] at ht2
      exact Option.noConfusion ht2
    next => exact absurd hu (by simp)
  next => exact absurd hu (by simp)

theorem tryMatchAiza_transfer (p : Option Char) (u t : List Char)
    (hpre : takeS u <+: takeS t) (ht : tryMatchAiza p t = none) :
    tryMatchAiza p u = none := by
  rcases hu : tryMatchAiza p u with _ | n
  · rfl
  exfalso
  rw [tryMatchAiza.eq_def] at hu
  split at hu
  next rest =>
    split at hu
    next hge =>
      rcases lit_run_transfer ['A', 'I', 'z', 'a'] isJwtClass 20 jc_scan
          (by decide) _ t hpre rest rfl hge with ⟨rt, htt, hrt⟩
      rw [htt] at ht
      simp only [List.cons_append, List.nil_append] at ht
      have ht2 : (if 20 ≤ runLen isJwtClass rt then
          some (4 + runLen isJwtClass rt) else (none : Option Nat)) = none := ht
      rw [if_pos hrt] at ht2
      exact Option.noConfusion ht2
    next => exact absurd hu (by simp)
  next => exact absurd hu (by simp)

/-! ## JWT backtracking lemmas -/

theorem findJwtK_some (R : List Char) :
    ∀ (b k : Nat), findJwtK R b = some k →
      20 ≤ k ∧ k ≤ b ∧ jwtBnd R k = true := by
  intro b
  induction b with
  | zero => intro k h; exact absurd h (by simp [findJwtK])
  | succ b0 ih =>
    intro k h
    rw [findJwtK] at h
    split at h
    next hcond =>
      injection h with h'
      subst h'
      simp only [Bool.and_eq_true, decide_eq_true_eq] at hcond
      exact ⟨hcond.1, le_refl _, hcond.2⟩
    next hcond =>
      rcases ih k h with ⟨h1, h2, h3⟩
      exact ⟨h1, by omega, h3⟩

theorem findJwtK_max (R : List Char) :
    ∀ (b k : Nat), findJwtK R b = some k →
      ∀ j, k < j → j ≤ b → jwtBnd R j = false := by
  intro b
  induction b with
  | zero => intro k h; exact absurd h (by simp [findJwtK])
  | succ b0 ih =>
    intro k h j hkj hjb
    rw [findJwtK] at h
    split at h
    next hcond =>
      injection h with h'
      omega
    next hcond =>
      have hk20 : 20 ≤ k := (findJwtK_some R b0 k h).1
      rcases Nat.lt_or_ge j (b0 + 1) with hj | hj
      · exact ih k h j hkj (by omega)
      · have hjeq : j = b0 + 1 := by omega
        subst hjeq
        simp only [Bool.and_eq_true, decide_eq_true_eq, not_and] at hcond
        rcases hb : jwtBnd R (b0 + 1) with _ | _
        · rfl
        · exact absurd hb (by simpa using hcond (by omega))

theorem findJwtK_none (R : List Char) :
    ∀ (b : Nat), findJwtK R b = none →
      ∀ j, 20 ≤ j → j ≤ b → jwtBnd R j = false := by
  intro b
  induction b with
  | zero => intro _ j _ hj; omega
  | succ b0 ih =>
    intro h j h20 hjb
    rw [findJwtK] at h
    split at h
    next hcond => exact absurd h (by simp)
    next hcond =>
      rcases Nat.lt_or_ge j (b0 + 1) with hj | hj
      · exact ih h j h20 (by omega)
      · have hjeq : j = b0 + 1 := by omega
        subst hjeq
        simp only [Bool.and_eq_true, decide_eq_true_eq, not_and] at hcond
        rcases hb : jwtBnd R (b0 + 1) with _ | _
        · rfl
        · exact absurd hb (by simpa using hcond h20)

theorem wordAt_out (R : List Char) (i : Nat) (h : R.length ≤ i) :
    wordAt R i = false := by
  rw [wordAt, List.getElem?_eq_none h]

theorem wordAt_true_lt (R : List Char) (i : Nat) (h : wordAt R i = true) :
    i < R.length := by
  by_contra hge
  rw [wordAt_out R i (by omega)] at h
  exact Bool.noConfusion h

theorem wordAt_congr_take (R R' : List Char) (m i : Nat)
    (heq : R.take m = R'.take m) (hi : i < m) : wordAt R i = wordAt R' i := by
  rw [wordAt, wordAt]
  have h1 : R[i]? = (R.take m)[i]? := by rw [List.getElem?_take, if_pos hi]
  have h2 : R'[i]? = (R'.take m)[i]? := by rw [List.getElem?_take, if_pos hi]
  rw [h1, h2, heq]

/-- Downward chain: if no boundary holds above `k0`, every position from
`k0` on is non-word. -/
theorem wordAt_false_chain (R : List Char) (k0 : Nat)
    (hmax : ∀ j, k0 < j → j ≤ R.length → jwtBnd R j = false) :
    ∀ i, k0 ≤ i → i ≤ R.length → wordAt R i = false := by
  have main : ∀ d i, R.length - i = d → k0 ≤ i → i ≤ R.length → wordAt R i = false := by
    intro d
    induction d with
    | zero =>
      intro i hdi _ hle
      have : i = R.length := by omega
      exact this ▸ wordAt_out R _ (le_refl _)
    | succ d0 ih =>
      intro i hdi hk0 hle
      have hnext : wordAt R (i + 1) = false := ih (i + 1) (by omega) (by omega) (by omega)
      have hbnd := hmax (i + 1) (by omega) (by omega)
      rw [jwtBnd, Nat.add_sub_cancel, hnext] at hbnd
      rcases hw : wordAt R i with _ | _
      · rfl
      · rw [hw] at hbnd
        exact Bool.noConfusion hbnd
  intro i
  exact main (R.length - i) i rfl

/-- A successful backtrack yields a word character at position `k - 1`
or `k` of the run. -/
theorem findJwtK_word_witness (R : List Char) (k : Nat)
    (h : findJwtK R R.length = some k) :
    ∃ j, 19 ≤ j ∧ j ≤ k ∧ j < R.length ∧ wordAt R j = true := by
  rcases findJwtK_some R R.length k h with ⟨h20, hkb, hbnd⟩
  rw [jwtBnd] at hbnd
  rcases hw1 : wordAt R (k - 1) with _ | _
  · rw [hw1] at hbnd
    have hw2 : wordAt R k = true := by
      rcases hw : wordAt R k with _ | _
      · rw [hw] at hbnd; exact Bool.noConfusion hbnd
      · rfl
    exact ⟨k, by omega, le_refl _, wordAt_true_lt R k hw2, hw2⟩
  · exact ⟨k - 1, by omega, by omega, by
      have := wordAt_true_lt R (k - 1) hw1
      omega, hw1⟩

/-- Conversely, a word character at a position `≥ 19` of a run of
length `≥ 20` makes the backtrack succeed. -/
theorem findJwtK_isSome_of_word (R : List Char) (j : Nat) (hlen : 20 ≤ R.length)
    (h19 : 19 ≤ j) (hj : j < R.length) (hw : wordAt R j = true) :
    (findJwtK R R.length).isSome = true := by
  rcases hfk : findJwtK R R.length with _ | k
  · exfalso
    have hmax := findJwtK_none R R.length hfk
    have hchain := wordAt_false_chain R 19 (fun j' hj' hj'' => hmax j' (by omega) hj'')
    rw [hchain j h19 (by omega)] at hw
    exact Bool.noConfusion hw
  · rfl

theorem wordAt_false_of_found (R : List Char) (k : Nat)
    (h : findJwtK R R.length = some k) (hk : k < R.length) :
    wordAt R k = false := by
  rcases findJwtK_some R R.length k h with ⟨h20, hkb, _⟩
  exact wordAt_false_chain R k (findJwtK_max R R.length k h) k (le_refl _) (by omega)

/-! ## Slicing helpers -/

theorem take_eq_getElem? (u t : List Char) (M i : Nat)
    (heq : t.take M = u.take M) (hi : i < M) : t[i]? = u[i]? := by
  have h1 : (t.take M)[i]? = t[i]? := by rw [List.getElem?_take, if_pos hi]
  have h2 : (u.take M)[i]? = u[i]? := by rw [List.getElem?_take, if_pos hi]
  rw [← h1, heq, h2]

theorem take_eq_slice (u t : List Char) (M a b : Nat)
    (heq : t.take M = u.take M) (hab : a + b ≤ M) :
    (t.drop a).take b = (u.drop a).take b := by
  rw [List.take_drop, List.take_drop]
  have hsub : t.take (a + b) = u.take (a + b) := by
    have h1 : t.take (a + b) = (t.take M).take (a + b) := by
      rw [List.take_take, Nat.min_def, if_pos hab]
    rw [h1, heq, List.take_take, Nat.min_def, if_pos hab]
  rw [hsub]

theorem take_eq_shrink (u t : List Char) (M m : Nat)
    (heq : t.take M = u.take M) (hm : m ≤ M) : t.take m = u.take m := by
  have h1 : t.take m = (t.take M).take m := by
    rw [List.take_take, Nat.min_def, if_pos hm]
  rw [h1, heq, List.take_take, Nat.min_def, if_pos hm]

theorem takeWhile_take_of_le (p : Char → Bool) (l : List Char) (m : Nat)
    (hm : m ≤ (l.takeWhile p).length) : (l.takeWhile p).take m = l.take m := by
  have h1 : l.takeWhile p <+: l := List.takeWhile_prefix p
  have h2 : (l.takeWhile p).take m <+: l := (List.take_prefix _ _).trans h1
  have h3 : (l.takeWhile p).take m = l.take ((l.takeWhile p).take m).length :=
    List.prefix_iff_eq_take.mp h2
  have h4 : ((l.takeWhile p).take m).length = m := by
    rw [List.length_take]
    omega
  rw [h4] at h3
  exact h3

theorem takeWhile_stop (p : Char → Bool) :
    ∀ (l : List Char) (c : Char), l[(l.takeWhile p).length]? = some c →
      p c = false := by
  intro l
  induction l with
  | nil => intro c h; simp at h
  | cons a r ih =>
    intro c h
    by_cases ha : p a = true
    · rw [List.takeWhile_cons_of_pos ha] at h
      simp only [List.length_cons, List.getElem?_cons_succ] at h
      exact ih c h
    · rw [List.takeWhile_cons_of_neg ha] at h
      simp only [List.length_nil, List.getElem?_cons_zero] at h
      injection h with h'
      subst h'
      simpa using ha

theorem takeWhile_length_ge (p : Char → Bool) (l : List Char) (m : Nat)
    (hm : m ≤ l.length) (hall : (l.take m).all p = true) :
    m ≤ (l.takeWhile p).length := by
  have h := prefix_takeWhile_of_take_all p l m hm hall
  have := h.length_le
  rw [List.length_take] at this
  omega

/-! ## JWT matcher inversion and consequences -/

theorem jwtSeg3_inv (rest2 : List Char) (m : Nat) (h : jwtSeg3 rest2 = some m) :
    ∃ (t3 : List Char) (k : Nat), rest2 = '.' :: t3 ∧
      findJwtK (t3.takeWhile isJwtClass) (t3.takeWhile isJwtClass).length = some k ∧
      m = 1 + k := by
  rw [jwtSeg3.eq_def] at h
  split at h
  next t3 =>
    split at h
    next k hfk =>
      injection h with h'
      exact ⟨t3, k, rfl, hfk, h'.symm⟩
    next => exact absurd h (by simp)
  next => exact absurd h (by simp)

theorem jwtSeg2_inv (rest1 : List Char) (m : Nat) (h : jwtSeg2 rest1 = some m) :
    ∃ (t2 : List Char) (m3 : Nat), rest1 = '.' :: t2 ∧
      20 ≤ runLen isJwtClass t2 ∧
      jwtSeg3 (t2.drop (runLen isJwtClass t2)) = some m3 ∧
      m = 1 + runLen isJwtClass t2 + m3 := by
  rw [jwtSeg2.eq_def] at h
  split at h
  next t2 =>
    split at h
    next => exact absurd h (by simp)
    next hr2 =>
      split at h
      next m3 hseg3 =>
        injection h with h'
        exact ⟨t2, m3, rfl, by omega, hseg3, h'.symm⟩
      next => exact absurd h (by simp)
  next => exact absurd h (by simp)

theorem tryMatchJwt_inv (p : Option Char) (s : List Char) (n : Nat)
    (h : tryMatchJwt p s = some n) :
    ∃ (c : Char) (t2 t3 : List Char) (k : Nat),
      s[0]? = some c ∧
      (isWordOpt p == isWordChar c) = false ∧
      20 ≤ runLen isJwtClass s ∧
      s.drop (runLen isJwtClass s) = '.' :: t2 ∧
      20 ≤ runLen isJwtClass t2 ∧
      t2.drop (runLen isJwtClass t2) = '.' :: t3 ∧
      findJwtK (t3.takeWhile isJwtClass) (t3.takeWhile isJwtClass).length = some k ∧
      n = runLen isJwtClass s + 1 + runLen isJwtClass t2 + 1 + k := by
  rw [tryMatchJwt.eq_def] at h
  split at h
  next => exact absurd h (by simp)
  next c stail =>
    split at h
    next => exact absurd h (by simp)
    next hb =>
      split at h
      next => exact absurd h (by simp)
      next hr1 =>
        split at h
        next m hseg2 =>
          rcases jwtSeg2_inv _ m hseg2 with ⟨t2, m3, heq1, hr2, hseg3, hm⟩
          rcases jwtSeg3_inv _ m3 hseg3 with ⟨t3, k, heq2, hfk, hm3⟩
          injection h with h'
          exact ⟨c, t2, t3, k, List.getElem?_cons_zero, by simpa using hb,
            by omega, heq1, hr2, heq2, hfk, by omega⟩
        next => exact absurd h (by simp)

/-- Forward construction: present the three segments and the match
succeeds with the expected length. -/
theorem tryMatchJwt_eq_some (p : Option Char) (t : List Char) (c : Char)
    (t2 t3 : List Char) (k : Nat)
    (hc : t[0]? = some c)
    (hb : (isWordOpt p == isWordChar c) = false)
    (hr1 : 20 ≤ runLen isJwtClass t)
    (hd1 : t.drop (runLen isJwtClass t) = '.' :: t2)
    (hr2 : 20 ≤ runLen isJwtClass t2)
    (hd2 : t2.drop (runLen isJwtClass t2) = '.' :: t3)
    (hfk : findJwtK (t3.takeWhile isJwtClass) (t3.takeWhile isJwtClass).length = some k) :
    tryMatchJwt p t =
      some (runLen isJwtClass t + (1 + runLen isJwtClass t2 + (1 + k))) := by
  have hseg3 : jwtSeg3 (t2.drop (runLen isJwtClass t2)) = some (1 + k) := by
    rw [hd2, jwtSeg3, hfk]
  have hseg2 : jwtSeg2 (t.drop (runLen isJwtClass t)) =
      some (1 + runLen isJwtClass t2 + (1 + k)) := by
    rw [hd1, jwtSeg2, if_neg (by omega), hseg3]
  rcases t with _ | ⟨c0, ttail⟩
  · simp at hc
  · rw [List.getElem?_cons_zero] at hc
    injection hc with hc'
    subst hc'
    rw [tryMatchJwt, hb]
    simp only [Bool.false_eq_true, if_false]
    rw [if_neg (by omega), hseg2]

theorem tryMatchJwt_pos_le (p : Option Char) (s : List Char) (n : Nat)
    (h : tryMatchJwt p s = some n) : 1 ≤ n ∧ n ≤ s.length := by
  rcases tryMatchJwt_inv p s n h with
    ⟨c, t2, t3, k, _, _, hr1, hd1, hr2, hd2, hfk, hn⟩
  have hk := findJwtK_some _ _ _ hfk
  have hlen1 : s.length - runLen isJwtClass s = t2.length + 1 := by
    have := congrArg List.length hd1
    simp only [List.length_drop, List.length_cons] at this
    omega
  have hlen2 : t2.length - runLen isJwtClass t2 = t3.length + 1 := by
    have := congrArg List.length hd2
    simp only [List.length_drop, List.length_cons] at this
    omega
  have hr1le : runLen isJwtClass s ≤ s.length := runLen_le_length _ _
  have hr2le : runLen isJwtClass t2 ≤ t2.length := runLen_le_length _ _
  have hkle : k ≤ t3.length := by
    have h1 : (t3.takeWhile isJwtClass).length ≤ t3.length :=
      (List.takeWhile_prefix _).length_le
    omega
  omega

theorem getElem?_of_drop_cons (l tail : List Char) (r : Nat) (c : Char)
    (h : l.drop r = c :: tail) : l[r]? = some c := by
  have h0 := List.getElem?_drop l r 0
  rw [h] at h0
  simpa using h0.symm

theorem drop_cons_of_getElem? (l : List Char) (r : Nat) (c : Char)
    (hr : r < l.length) (h : l[r]? = some c) :
    l.drop r = c :: l.drop (r + 1) := by
  have h2 := List.getElem?_eq_getElem hr
  rw [h] at h2
  injection h2 with h3
  rw [List.drop_eq_getElem_cons hr, ← h3]

/-- Taking past a known `'.'` split point decomposes the prefix. -/
theorem take_split_dot (l tail : List Char) (r i : Nat)
    (hsplit : l.drop r = '.' :: tail) (hr : r ≤ l.length) :
    l.take (r + (1 + i)) = l.take r ++ '.' :: tail.take i := by
  have hlen : (l.take r).length = r := by
    rw [List.length_take]
    omega
  conv_lhs => rw [← List.take_append_drop r l, hsplit]
  rw [show r + (1 + i) = (l.take r).length + (1 + i) from by rw [hlen]]
  rw [List.take_append]
  rw [show 1 + i = i + 1 from by omega, List.take_succ_cons]

/-- The character immediately after a JWT match is never a word
character: the chosen backtrack point either ends at the maximal class
run (whose terminator is outside the class, hence non-word) or at a
class position the boundary chain proves non-word. -/
theorem tryMatchJwt_after_nonword (p : Option Char) (s : List Char) (n : Nat)
    (h : tryMatchJwt p s = some n) :
    ∀ d, (s.drop n)[0]? = some d → isWordChar d = false := by
  rcases tryMatchJwt_inv p s n h with
    ⟨c, t2, t3, k, _, _, hr1, hd1, hr2, hd2, hfk, hn⟩
  intro d hd
  have hk := findJwtK_some _ _ _ hfk
  have ht2 : s.drop (runLen isJwtClass s + 1) = t2 := by
    rw [← List.drop_drop, hd1]
    rfl
  have ht3 : t2.drop (runLen isJwtClass t2 + 1) = t3 := by
    rw [← List.drop_drop, hd2]
    rfl
  have hsdrop : s.drop n = t3.drop k := by
    have e2 : s.drop ((runLen isJwtClass s + 1) + (runLen isJwtClass t2 + 1)) = t3 := by
      rw [← List.drop_drop, ht2, ht3]
    have e3 : (s.drop ((runLen isJwtClass s + 1) + (runLen isJwtClass t2 + 1))).drop k
        = s.drop n := by
      rw [List.drop_drop,
        show runLen isJwtClass s + 1 + (runLen isJwtClass t2 + 1) + k = n from by omega]
    rw [← e3, e2]
  rw [hsdrop] at hd
  have hd3 : t3[k]? = some d := by
    simpa [List.getElem?_drop] using hd
  rcases Nat.lt_or_ge k (t3.takeWhile isJwtClass).length with hlt | hge
  · have hRk : (t3.takeWhile isJwtClass)[k]? = some d := by
      have hpre := List.takeWhile_prefix (l := t3) isJwtClass
      rcases hpre with ⟨rest, hrest⟩
      rw [← hrest] at hd3
      rw [List.getElem?_append, if_pos hlt] at hd3
      exact hd3
    have hwf := wordAt_false_of_found _ k hfk hlt
    rw [wordAt, hRk] at hwf
    exact hwf
  · have hkeq : k = (t3.takeWhile isJwtClass).length := by omega
    have := takeWhile_stop isJwtClass t3 d (hkeq ▸ hd3)
    exact not_jc_not_word d this

/-- The JWT matcher's verdict transfers along scan-prefix extensions:
a match inside `u` yields a match inside `t` whenever `u`'s scan prefix
is a prefix of `t`'s. -/
theorem tryMatchJwt_transfer (p : Option Char) (u t : List Char)
    (hpre : takeS u <+: takeS t) (ht : tryMatchJwt p t = none) :
    tryMatchJwt p u = none := by
  rcases hu : tryMatchJwt p u with _ | n
  · rfl
  exfalso
  rcases tryMatchJwt_inv p u n hu with
    ⟨c, t2u, t3u, k, hc0, hb, hr1, hd1, hr2, hd2, hfk, hn⟩
  clear hn hu
  obtain ⟨j, hj19, hjk, hjR, hjw⟩ := findJwtK_word_witness _ k hfk
  have hr1le : runLen isJwtClass u ≤ u.length := runLen_le_length _ _
  have hr2le : runLen isJwtClass t2u ≤ t2u.length := runLen_le_length _ _
  have ht2u : u.drop (runLen isJwtClass u + 1) = t2u := by
    rw [← List.drop_drop, hd1]
    rfl
  have ht3u : u.drop (runLen isJwtClass u + 1 + (runLen isJwtClass t2u + 1)) = t3u := by
    rw [← List.drop_drop, ht2u, ← List.drop_drop, hd2]
    rfl
  have hlen1 : u.length = runLen isJwtClass u + 1 + t2u.length := by
    have := congrArg List.length hd1
    simp only [List.length_drop, List.length_cons] at this
    omega
  have hlen2 : t2u.length = runLen isJwtClass t2u + 1 + t3u.length := by
    have := congrArg List.length hd2
    simp only [List.length_drop, List.length_cons] at this
    omega
  have hjR' : j < t3u.length :=
    lt_of_lt_of_le hjR (List.takeWhile_prefix _).length_le
  have hC_eq : t3u.take (j + 1) = (t3u.takeWhile isJwtClass).take (j + 1) :=
    (takeWhile_take_of_le isJwtClass t3u (j + 1) (by omega)).symm
  have hC_all : (t3u.take (j + 1)).all isJwtClass = true := by
    rw [hC_eq, List.all_eq_true]
    intro x hx
    exact List.mem_takeWhile_imp (List.mem_of_mem_take hx)
  have hu_take : u.take (runLen isJwtClass u +
        (1 + (runLen isJwtClass t2u + (1 + (j + 1)))))
      = u.take (runLen isJwtClass u)
        ++ '.' :: (t2u.take (runLen isJwtClass t2u) ++ '.' :: t3u.take (j + 1)) := by
    rw [take_split_dot u t2u (runLen isJwtClass u) _ hd1 hr1le,
      take_split_dot t2u t3u (runLen isJwtClass t2u) _ hd2 hr2le]
  have hall : (u.take (runLen isJwtClass u +
      (1 + (runLen isJwtClass t2u + (1 + (j + 1)))))).all isScanChar = true := by
    rw [hu_take]
    simp only [List.all_append, List.all_cons, Bool.and_eq_true]
    refine ⟨?_, by decide, ?_, by decide, ?_⟩
    · rw [List.all_eq_true]
      intro x hx
      exact jc_scan x (List.all_eq_true.mp (runLen_take_all isJwtClass u) x hx)
    · rw [List.all_eq_true]
      intro x hx
      exact jc_scan x (List.all_eq_true.mp (runLen_take_all isJwtClass t2u) x hx)
    · rw [List.all_eq_true]
      intro x hx
      exact jc_scan x (List.all_eq_true.mp hC_all x hx)
  have heq : t.take (runLen isJwtClass u +
        (1 + (runLen isJwtClass t2u + (1 + (j + 1)))))
      = u.take (runLen isJwtClass u +
        (1 + (runLen isJwtClass t2u + (1 + (j + 1))))) :=
    takeS_mono_take u t _ (by omega) hall hpre
  have htlen : runLen isJwtClass u +
      (1 + (runLen isJwtClass t2u + (1 + (j + 1)))) ≤ t.length := by
    have := congrArg List.length heq
    simp only [List.length_take] at this
    omega
  have ht_take_r1 : t.take (runLen isJwtClass u) = u.take (runLen isJwtClass u) :=
    take_eq_shrink u t _ _ heq (by omega)
  have hu_r1 : u[runLen isJwtClass u]? = some '.' :=
    getElem?_of_drop_cons u t2u _ '.' hd1
  have ht_r1 : t[runLen isJwtClass u]? = some '.' := by
    rw [take_eq_getElem? u t _ _ heq (by omega)]
    exact hu_r1
  have hr1t : runLen isJwtClass t = runLen isJwtClass u := by
    apply runLen_eq_of
    · omega
    · rw [ht_take_r1]
      exact runLen_take_all isJwtClass u
    · intro c' hc'
      rw [ht_r1] at hc'
      injection hc' with hc''
      rw [← hc'']
      decide
  have ht_dt2 : t.drop (runLen isJwtClass u)
      = '.' :: t.drop (runLen isJwtClass u + 1) :=
    drop_cons_of_getElem? t _ '.' (by omega) ht_r1
  have ht_dot2 : t[runLen isJwtClass u + 1 + runLen isJwtClass t2u]? = some '.' := by
    rw [take_eq_getElem? u t _ _ heq (by omega)]
    have e3 := List.getElem?_drop u (runLen isJwtClass u + 1) (runLen isJwtClass t2u)
    rw [ht2u] at e3
    rw [← e3]
    exact getElem?_of_drop_cons t2u t3u _ '.' hd2
  have ht2t_slice : (t.drop (runLen isJwtClass u + 1)).take (runLen isJwtClass t2u)
      = t2u.take (runLen isJwtClass t2u) := by
    have hsl := take_eq_slice u t _ (runLen isJwtClass u + 1)
      (runLen isJwtClass t2u) heq (by omega)
    rw [ht2u] at hsl
    exact hsl
  have hr2t : runLen isJwtClass (t.drop (runLen isJwtClass u + 1))
      = runLen isJwtClass t2u := by
    apply runLen_eq_of
    · rw [List.length_drop]
      omega
    · rw [ht2t_slice]
      exact runLen_take_all _ _
    · intro c' hc'
      rw [List.getElem?_drop, ht_dot2] at hc'
      injection hc' with hc''
      rw [← hc'']
      decide
  have ht_dt3 : (t.drop (runLen isJwtClass u + 1)).drop (runLen isJwtClass t2u)
      = '.' :: (t.drop (runLen isJwtClass u + 1)).drop (runLen isJwtClass t2u + 1) := by
    apply drop_cons_of_getElem?
    · rw [List.length_drop]
      omega
    · rw [List.getElem?_drop]
      exact ht_dot2
  have ht3t : (t.drop (runLen isJwtClass u + 1)).drop (runLen isJwtClass t2u + 1)
      = t.drop (runLen isJwtClass u + 1 + (runLen isJwtClass t2u + 1)) :=
    List.drop_drop _ _ _
  have hC_slice : (t.drop (runLen isJwtClass u + 1
        + (runLen isJwtClass t2u + 1))).take (j + 1)
      = t3u.take (j + 1) := by
    have hsl := take_eq_slice u t _
      (runLen isJwtClass u + 1 + (runLen isJwtClass t2u + 1)) (j + 1) heq (by omega)
    rw [ht3u] at hsl
    exact hsl
  have hRt_len : j + 1 ≤ ((t.drop (runLen isJwtClass u + 1
      + (runLen isJwtClass t2u + 1))).takeWhile isJwtClass).length := by
    apply takeWhile_length_ge
    · rw [List.length_drop]
      omega
    · rw [hC_slice]
      exact hC_all
  have hRt_take : ((t.drop (runLen isJwtClass u + 1
        + (runLen isJwtClass t2u + 1))).takeWhile isJwtClass).take (j + 1)
      = (t3u.takeWhile isJwtClass).take (j + 1) := by
    rw [takeWhile_take_of_le _ _ _ hRt_len, hC_slice, hC_eq]
  have hw_t : wordAt ((t.drop (runLen isJwtClass u + 1
      + (runLen isJwtClass t2u + 1))).takeWhile isJwtClass) j = true := by
    rw [wordAt_congr_take _ (t3u.takeWhile isJwtClass) (j + 1) j hRt_take (by omega)]
    exact hjw
  have hfk_t : (findJwtK ((t.drop (runLen isJwtClass u + 1
      + (runLen isJwtClass t2u + 1))).takeWhile isJwtClass)
      ((t.drop (runLen isJwtClass u + 1
        + (runLen isJwtClass t2u + 1))).takeWhile isJwtClass).length).isSome = true :=
    findJwtK_isSome_of_word _ j (by omega) (by omega) (by omega) hw_t
  rcases hfk_t' : findJwtK ((t.drop (runLen isJwtClass u + 1
      + (runLen isJwtClass t2u + 1))).takeWhile isJwtClass)
      ((t.drop (runLen isJwtClass u + 1
        + (runLen isJwtClass t2u + 1))).takeWhile isJwtClass).length with _ | kt
  · rw [hfk_t'] at hfk_t
    exact Bool.noConfusion hfk_t
  have hct : t[0]? = some c := by
    rw [take_eq_getElem? u t _ 0 heq (by omega)]
    exact hc0
  have hsome := tryMatchJwt_eq_some p t c (t.drop (runLen isJwtClass u + 1))
    (t.drop (runLen isJwtClass u + 1 + (runLen isJwtClass t2u + 1))) kt
    hct hb (by rw [hr1t]; exact hr1) (by rw [hr1t]; exact ht_dt2)
    (by rw [hr2t]; exact hr2) (by rw [hr2t, ht_dt3, ht3t]) hfk_t'
  rw [hsome] at ht
  exact Option.noConfusion ht

/-! ## No pattern matches inside or across the placeholder -/

theorem PLACEHOLDER_chars : PLACEHOLDER =
    ['[', 'R', 'E', 'D', 'A', 'C', 'T', 'E', 'D', '_',
     'S', 'E', 'C', 'R', 'E', 'T', ']'] := rfl

/-- A position whose maximal class run is shorter than 20 cannot start
a JWT match, whatever the context. -/
theorem tryMatchJwt_short_run (p : Option Char) (c : Char) (s : List Char)
    (h : runLen isJwtClass (c :: s) < 20) : tryMatchJwt p (c :: s) = none := by
  rw [tryMatchJwt]
  rcases hcond : (isWordOpt p == isWordChar c) with _ | _
  · rw [if_neg (by simp : ¬false = true), if_pos h]
  · rw [if_pos (rfl : true = true)]

theorem runLen_lt_20_of_append (xs r : List Char)
    (h1 : runLen isJwtClass xs < xs.length) (h2 : runLen isJwtClass xs < 20) :
    runLen isJwtClass (xs ++ r) < 20 := by
  rw [runLen_append_of_lt _ _ _ h1]
  exact h2

theorem noM_ph_sk (prev : Option Char) (r : List Char)
    (hr : noM tryMatchSk (some ']') r = true) :
    noM tryMatchSk prev (PLACEHOLDER ++ r) = true := by
  rw [PLACEHOLDER_chars]
  simp only [List.cons_append, List.nil_append, noM, Bool.and_eq_true,
    Option.isNone_iff_eq_none]
  exact ⟨rfl, rfl, rfl, rfl, rfl, rfl, rfl, rfl, rfl, rfl, rfl, rfl, rfl,
    rfl, rfl, rfl, rfl, hr⟩

theorem noM_ph_akia (prev : Option Char) (r : List Char)
    (hr : noM tryMatchAkia (some ']') r = true) :
    noM tryMatchAkia prev (PLACEHOLDER ++ r) = true := by
  rw [PLACEHOLDER_chars]
  simp only [List.cons_append, List.nil_append, noM, Bool.and_eq_true,
    Option.isNone_iff_eq_none]
  exact ⟨rfl, rfl, rfl, rfl, rfl, rfl, rfl, rfl, rfl, rfl, rfl, rfl, rfl,
    rfl, rfl, rfl, rfl, hr⟩

theorem noM_ph_aiza (prev : Option Char) (r : List Char)
    (hr : noM tryMatchAiza (some ']') r = true) :
    noM tryMatchAiza prev (PLACEHOLDER ++ r) = true := by
  rw [PLACEHOLDER_chars]
  simp only [List.cons_append, List.nil_append, noM, Bool.and_eq_true,
    Option.isNone_iff_eq_none]
  exact ⟨rfl, rfl, rfl, rfl, rfl, rfl, rfl, rfl, rfl, rfl, rfl, rfl, rfl,
    rfl, rfl, rfl, rfl, hr⟩

theorem noM_ph_jwt (prev : Option Char) (r : List Char)
    (hr : noM tryMatchJwt (some ']') r = true) :
    noM tryMatchJwt prev (PLACEHOLDER ++ r) = true := by
  rw [PLACEHOLDER_chars]
  simp only [List.cons_append, List.nil_append, noM, Bool.and_eq_true,
    Option.isNone_iff_eq_none]
  refine ⟨?_, ?_, ?_, ?_, ?_, ?_, ?_, ?_, ?_, ?_, ?_, ?_, ?_, ?_, ?_, ?_, ?_, hr⟩
  · exact tryMatchJwt_short_run _ _ _ (runLen_lt_20_of_append
      ['[', 'R', 'E', 'D', 'A', 'C', 'T', 'E', 'D', '_', 'S', 'E', 'C', 'R', 'E', 'T', ']']
      r (by decide) (by decide))
  · exact tryMatchJwt_short_run _ _ _ (runLen_lt_20_of_append
      ['R', 'E', 'D', 'A', 'C', 'T', 'E', 'D', '_', 'S', 'E', 'C', 'R', 'E', 'T', ']']
      r (by decide) (by decide))
  · exact tryMatchJwt_short_run _ _ _ (runLen_lt_20_of_append
      ['E', 'D', 'A', 'C', 'T', 'E', 'D', '_', 'S', 'E', 'C', 'R', 'E', 'T', ']']
      r (by decide) (by decide))
  · exact tryMatchJwt_short_run _ _ _ (runLen_lt_20_of_append
      ['D', 'A', 'C', 'T', 'E', 'D', '_', 'S', 'E', 'C', 'R', 'E', 'T', ']']
      r (by decide) (by decide))
  · exact tryMatchJwt_short_run _ _ _ (runLen_lt_20_of_append
      ['A', 'C', 'T', 'E', 'D', '_', 'S', 'E', 'C', 'R', 'E', 'T', ']']
      r (by decide) (by decide))
  · exact tryMatchJwt_short_run _ _ _ (runLen_lt_20_of_append
      ['C', 'T', 'E', 'D', '_', 'S', 'E', 'C', 'R', 'E', 'T', ']']
      r (by decide) (by decide))
  · exact tryMatchJwt_short_run _ _ _ (runLen_lt_20_of_append
      ['T', 'E', 'D', '_', 'S', 'E', 'C', 'R', 'E', 'T', ']']
      r (by decide) (by decide))
  · exact tryMatchJwt_short_run _ _ _ (runLen_lt_20_of_append
      ['E', 'D', '_', 'S', 'E', 'C', 'R', 'E', 'T', ']']
      r (by decide) (by decide))
  · exact tryMatchJwt_short_run _ _ _ (runLen_lt_20_of_append
      ['D', '_', 'S', 'E', 'C', 'R', 'E', 'T', ']']
      r (by decide) (by decide))
  · exact tryMatchJwt_short_run _ _ _ (runLen_lt_20_of_append
      ['_', 'S', 'E', 'C', 'R', 'E', 'T', ']']
      r (by decide) (by decide))
  · exact tryMatchJwt_short_run _ _ _ (runLen_lt_20_of_append
      ['S', 'E', 'C', 'R', 'E', 'T', ']']
      r (by decide) (by decide))
  · exact tryMatchJwt_short_run _ _ _ (runLen_lt_20_of_append
      ['E', 'C', 'R', 'E', 'T', ']']
      r (by decide) (by decide))
  · exact tryMatchJwt_short_run _ _ _ (runLen_lt_20_of_append
      ['C', 'R', 'E', 'T', ']']
      r (by decide) (by decide))
  · exact tryMatchJwt_short_run _ _ _ (runLen_lt_20_of_append
      ['R', 'E', 'T', ']']
      r (by decide) (by decide))
  · exact tryMatchJwt_short_run _ _ _ (runLen_lt_20_of_append
      ['E', 'T', ']']
      r (by decide) (by decide))
  · exact tryMatchJwt_short_run _ _ _ (runLen_lt_20_of_append
      ['T', ']']
      r (by decide) (by decide))
  · exact tryMatchJwt_short_run _ _ _ (runLen_lt_20_of_append
      [']']
      r (by decide) (by decide))

theorem tryMatchSk_bracket (p : Option Char) (r : List Char) :
    tryMatchSk p ('[' :: r) = none := rfl

theorem tryMatchAkia_bracket (p : Option Char) (r : List Char) :
    tryMatchAkia p ('[' :: r) = none := rfl

theorem tryMatchAiza_bracket (p : Option Char) (r : List Char) :
    tryMatchAiza p ('[' :: r) = none := rfl

theorem tryMatchJwt_bracket (p : Option Char) (r : List Char) :
    tryMatchJwt p ('[' :: r) = none :=
  tryMatchJwt_short_run p '[' r (by
    rw [runLen, if_neg (by decide)]
    omega)

/-! ## Generic properties of a global-replace pass -/

theorem redactGo_takeS_prefix (tm : Option Char → List Char → Option Nat) :
    ∀ (fuel : Nat) (prev : Option Char) (s : List Char),
      takeS (redactGo tm fuel prev s).1 <+: takeS s := by
  intro fuel
  induction fuel with
  | zero =>
    intro prev s
    cases s with
    | nil => exact List.prefix_refl _
    | cons c r => exact List.prefix_refl _
  | succ f ih =>
    intro prev s
    cases s with
    | nil => exact List.prefix_refl _
    | cons c r =>
      have hcons : takeS (c :: (redactGo tm f (some c) r).1) <+: takeS (c :: r) := by
        simp only [takeS]
        by_cases hc : isScanChar c = true
        · rw [List.takeWhile_cons_of_pos hc, List.takeWhile_cons_of_pos hc,
            List.cons_prefix_cons]
          refine ⟨rfl, ?_⟩
          have := ih (some c) r
          simpa [takeS] using this
        · rw [List.takeWhile_cons_of_neg (by simp [hc]),
            List.takeWhile_cons_of_neg (by simp [hc])]
      rcases htm : tm prev (c :: r) with _ | n
      · have hred : redactGo tm (f + 1) prev (c :: r) =
            (c :: (redactGo tm f (some c) r).1, (redactGo tm f (some c) r).2) := by
          rw [redactGo, htm]
        rw [hred]
        exact hcons
      · rcases n with _ | m
        · have hred : redactGo tm (f + 1) prev (c :: r) =
              (c :: (redactGo tm f (some c) r).1, (redactGo tm f (some c) r).2) := by
            rw [redactGo, htm]
          rw [hred]
          exact hcons
        · have hred : redactGo tm (f + 1) prev (c :: r) =
              (PLACEHOLDER ++ (redactGo tm f (((c :: r).take (m + 1)).getLast?)
                  ((c :: r).drop (m + 1))).1,
                (redactGo tm f (((c :: r).take (m + 1)).getLast?)
                  ((c :: r).drop (m + 1))).2 + 1) := by
            rw [redactGo, htm]
          rw [hred]
          have hPH : takeS (PLACEHOLDER ++ (redactGo tm f (((c :: r).take (m + 1)).getLast?)
              ((c :: r).drop (m + 1))).1) = [] := by
            rw [PLACEHOLDER_chars]
            simp only [takeS, List.cons_append]
            exact List.takeWhile_cons_of_neg (by decide)
          rw [hPH]
          exact List.nil_prefix

theorem redactGo_head (tm : Option Char → List Char → Option Nat)
    (fuel : Nat) (prev : Option Char) (s : List Char) :
    (redactGo tm fuel prev s).1 = [] ∨
    ((redactGo tm fuel prev s).1)[0]? = some '[' ∨
    ((redactGo tm fuel prev s).1)[0]? = s[0]? := by
  cases fuel with
  | zero =>
    cases s with
    | nil => exact Or.inl rfl
    | cons c r => exact Or.inr (Or.inr rfl)
  | succ f =>
    cases s with
    | nil => exact Or.inl rfl
    | cons c r =>
      rcases htm : tm prev (c :: r) with _ | n
      · have hred : redactGo tm (f + 1) prev (c :: r) =
            (c :: (redactGo tm f (some c) r).1, (redactGo tm f (some c) r).2) := by
          rw [redactGo, htm]
        rw [hred]
        exact Or.inr (Or.inr (by simp))
      · rcases n with _ | m
        · have hred : redactGo tm (f + 1) prev (c :: r) =
              (c :: (redactGo tm f (some c) r).1, (redactGo tm f (some c) r).2) := by
            rw [redactGo, htm]
          rw [hred]
          exact Or.inr (Or.inr (by simp))
        · have hred : redactGo tm (f + 1) prev (c :: r) =
              (PLACEHOLDER ++ (redactGo tm f (((c :: r).take (m + 1)).getLast?)
                  ((c :: r).drop (m + 1))).1,
                (redactGo tm f (((c :: r).take (m + 1)).getLast?)
                  ((c :: r).drop (m + 1))).2 + 1) := by
            rw [redactGo, htm]
          rw [hred]
          exact Or.inr (Or.inl rfl)

theorem noM_redactGo_id (tm : Option Char → List Char → Option Nat) :
    ∀ (fuel : Nat) (prev : Option Char) (s : List Char), s.length ≤ fuel →
      noM tm prev s = true → redactGo tm fuel prev s = (s, 0) := by
  intro fuel
  induction fuel with
  | zero =>
    intro prev s hs _
    cases s with
    | nil => rfl
    | cons c r => simp at hs
  | succ f ih =>
    intro prev s hs hno
    cases s with
    | nil => rfl
    | cons c r =>
      rw [noM, Bool.and_eq_true, Option.isNone_iff_eq_none] at hno
      have hred : redactGo tm (f + 1) prev (c :: r) =
          (c :: (redactGo tm f (some c) r).1, (redactGo tm f (some c) r).2) := by
        rw [redactGo, hno.1]
      rw [hred, ih (some c) r (by simp at hs; omega) hno.2]

theorem redactGo_ph_infix (tm : Option Char → List Char → Option Nat) :
    ∀ (fuel : Nat) (prev : Option Char) (s : List Char),
      1 ≤ (redactGo tm fuel prev s).2 →
      PLACEHOLDER <:+: (redactGo tm fuel prev s).1 := by
  intro fuel
  induction fuel with
  | zero =>
    intro prev s h
    cases s with
    | nil => simp [redactGo] at h
    | cons c r => simp [redactGo] at h
  | succ f ih =>
    intro prev s h
    cases s with
    | nil => simp [redactGo] at h
    | cons c r =>
      rcases htm : tm prev (c :: r) with _ | n
      · have hred : redactGo tm (f + 1) prev (c :: r) =
            (c :: (redactGo tm f (some c) r).1, (redactGo tm f (some c) r).2) := by
          rw [redactGo, htm]
        rw [hred] at h ⊢
        rcases ih (some c) r h with ⟨x, y, hxy⟩
        exact ⟨c :: x, y, by rw [← hxy]; simp⟩
      · rcases n with _ | m
        · have hred : redactGo tm (f + 1) prev (c :: r) =
              (c :: (redactGo tm f (some c) r).1, (redactGo tm f (some c) r).2) := by
            rw [redactGo, htm]
          rw [hred] at h ⊢
          rcases ih (some c) r h with ⟨x, y, hxy⟩
          exact ⟨c :: x, y, by rw [← hxy]; simp⟩
        · have hred : redactGo tm (f + 1) prev (c :: r) =
              (PLACEHOLDER ++ (redactGo tm f (((c :: r).take (m + 1)).getLast?)
                  ((c :: r).drop (m + 1))).1,
                (redactGo tm f (((c :: r).take (m + 1)).getLast?)
                  ((c :: r).drop (m + 1))).2 + 1) := by
            rw [redactGo, htm]
          rw [hred]
          refine ⟨[], (redactGo tm f (((c :: r).take (m + 1)).getLast?)
            ((c :: r).drop (m + 1))).1, ?_⟩
          simp

theorem noM_prev_irrel (tm : Option Char → List Char → Option Nat)
    (hirr : ∀ (p q : Option Char) (s : List Char), tm p s = tm q s) :
    ∀ (s : List Char) (p q : Option Char), noM tm p s = noM tm q s := by
  intro s
  induction s with
  | nil => intro p q; rfl
  | cons c r ih =>
    intro p q
    rw [noM, noM, hirr p q]

theorem noM_drop (tm : Option Char → List Char → Option Nat) :
    ∀ (s : List Char) (prev : Option Char) (n : Nat),
      noM tm prev s = true → 0 < n →
      noM tm ((s.take n).getLast?) (s.drop n) = true := by
  intro s
  induction s with
  | nil =>
    intro prev n _ _
    simp only [List.take_nil, List.drop_nil]
    rfl
  | cons c r ih =>
    intro prev n hno hn
    rw [noM, Bool.and_eq_true] at hno
    rcases n with _ | n0
    · omega
    rcases n0 with _ | n1
    · simp only [List.take_succ_cons, List.take_zero, List.drop_succ_cons,
        List.drop_zero]
      simpa using hno.2
    · rw [List.take_succ_cons, List.drop_succ_cons]
      have hrec := ih (some c) (n1 + 1) hno.2 (by omega)
      rcases hX : r.take (n1 + 1) with _ | ⟨x, xr⟩
      · have hr : r = [] := by
          rcases List.take_eq_nil_iff.mp hX with h | h
          · exact absurd h (by omega)
          · exact h
        subst hr
        simp only [List.drop_nil]
        rfl
      · rw [List.getLast?_cons_cons, ← hX]
        exact hrec

/-- A pass leaves no match of its own pattern anywhere in its output. -/
theorem noM_redactGo (tm : Option Char → List Char → Option Nat)
    (hpos : ∀ p s n, tm p s = some n → 1 ≤ n)
    (htr : ∀ p u t, takeS u <+: takeS t → tm p t = none → tm p u = none)
    (hph : ∀ prev r, noM tm (some ']') r = true →
      noM tm prev (PLACEHOLDER ++ r) = true)
    (hbr : ∀ p r, tm p ('[' :: r) = none)
    (h9 : ∀ p s n d r' q, tm p s = some n → (s.drop n)[0]? = some d →
      tm q (d :: r') = none → tm (some ']') (d :: r') = none) :
    ∀ (fuel : Nat) (prev : Option Char) (s : List Char), s.length ≤ fuel →
      noM tm prev (redactGo tm fuel prev s).1 = true := by
  intro fuel
  induction fuel with
  | zero =>
    intro prev s hs
    cases s with
    | nil => rfl
    | cons c r => simp at hs
  | succ f ih =>
    intro prev s hs
    cases s with
    | nil => rfl
    | cons c r =>
      rcases htm : tm prev (c :: r) with _ | n
      · have hred : redactGo tm (f + 1) prev (c :: r) =
            (c :: (redactGo tm f (some c) r).1, (redactGo tm f (some c) r).2) := by
          rw [redactGo, htm]
        rw [hred]
        rw [noM, Bool.and_eq_true, Option.isNone_iff_eq_none]
        constructor
        · apply htr prev _ (c :: r) ?_ htm
          simp only [takeS]
          by_cases hc : isScanChar c = true
          · rw [List.takeWhile_cons_of_pos hc, List.takeWhile_cons_of_pos hc,
              List.cons_prefix_cons]
            refine ⟨rfl, ?_⟩
            simpa [takeS] using redactGo_takeS_prefix tm f (some c) r
          · rw [List.takeWhile_cons_of_neg (by simp [hc]),
              List.takeWhile_cons_of_neg (by simp [hc])]
        · exact ih (some c) r (by simp at hs; omega)
      · rcases n with _ | m
        · exact absurd (hpos _ _ _ htm) (by omega)
        · have hred : redactGo tm (f + 1) prev (c :: r) =
              (PLACEHOLDER ++ (redactGo tm f (((c :: r).take (m + 1)).getLast?)
                  ((c :: r).drop (m + 1))).1,
                (redactGo tm f (((c :: r).take (m + 1)).getLast?)
                  ((c :: r).drop (m + 1))).2 + 1) := by
            rw [redactGo, htm]
          rw [hred]
          apply hph
          have hfuel : ((c :: r).drop (m + 1)).length ≤ f := by
            simp only [List.length_drop, List.length_cons]
            simp only [List.length_cons] at hs
            omega
          have hnm := ih (((c :: r).take (m + 1)).getLast?) ((c :: r).drop (m + 1)) hfuel
          rcases hout : (redactGo tm f (((c :: r).take (m + 1)).getLast?)
              ((c :: r).drop (m + 1))).1 with _ | ⟨d, outr⟩
          · rfl
          · rw [hout] at hnm
            rw [noM, Bool.and_eq_true, Option.isNone_iff_eq_none] at hnm ⊢
            refine ⟨?_, hnm.2⟩
            rcases redactGo_head tm f (((c :: r).take (m + 1)).getLast?)
                ((c :: r).drop (m + 1)) with hh | hh | hh
            · rw [hout] at hh
              exact absurd hh (by simp)
            · rw [hout, List.getElem?_cons_zero] at hh
              injection hh with hh'
              rw [hh']
              exact hbr _ _
            · rw [hout, List.getElem?_cons_zero] at hh
              exact h9 prev (c :: r) (m + 1) d outr _ htm hh.symm hnm.1

/-- A pass of one pattern cannot create matches of a prev-independent
pattern that had none. -/
theorem noM_redactGo_preserved (tmi tmj : Option Char → List Char → Option Nat)
    (hposj : ∀ p s n, tmj p s = some n → 1 ≤ n)
    (hirr : ∀ (p q : Option Char) (s : List Char), tmi p s = tmi q s)
    (htri : ∀ p u t, takeS u <+: takeS t → tmi p t = none → tmi p u = none)
    (hphi : ∀ prev r, noM tmi (some ']') r = true →
      noM tmi prev (PLACEHOLDER ++ r) = true) :
    ∀ (fuel : Nat) (prev : Option Char) (s : List Char), s.length ≤ fuel →
      noM tmi prev s = true →
      noM tmi prev (redactGo tmj fuel prev s).1 = true := by
  intro fuel
  induction fuel with
  | zero =>
    intro prev s hs hno
    cases s with
    | nil => rfl
    | cons c r => simp at hs
  | succ f ih =>
    intro prev s hs hno
    cases s with
    | nil => rfl
    | cons c r =>
      have hno' := hno
      rw [noM, Bool.and_eq_true, Option.isNone_iff_eq_none] at hno'
      rcases htm : tmj prev (c :: r) with _ | n
      · have hred : redactGo tmj (f + 1) prev (c :: r) =
            (c :: (redactGo tmj f (some c) r).1, (redactGo tmj f (some c) r).2) := by
          rw [redactGo, htm]
        rw [hred]
        rw [noM, Bool.and_eq_true, Option.isNone_iff_eq_none]
        constructor
        · apply htri prev _ (c :: r) ?_ hno'.1
          simp only [takeS]
          by_cases hc : isScanChar c = true
          · rw [List.takeWhile_cons_of_pos hc, List.takeWhile_cons_of_pos hc,
              List.cons_prefix_cons]
            refine ⟨rfl, ?_⟩
            simpa [takeS] using redactGo_takeS_prefix tmj f (some c) r
          · rw [List.takeWhile_cons_of_neg (by simp [hc]),
              List.takeWhile_cons_of_neg (by simp [hc])]
        · exact ih (some c) r (by simp at hs; omega) hno'.2
      · rcases n with _ | m
        · exact absurd (hposj _ _ _ htm) (by omega)
        · have hred : redactGo tmj (f + 1) prev (c :: r) =
              (PLACEHOLDER ++ (redactGo tmj f (((c :: r).take (m + 1)).getLast?)
                  ((c :: r).drop (m + 1))).1,
                (redactGo tmj f (((c :: r).take (m + 1)).getLast?)
                  ((c :: r).drop (m + 1))).2 + 1) := by
            rw [redactGo, htm]
          rw [hred]
          apply hphi
          have hfuel : ((c :: r).drop (m + 1)).length ≤ f := by
            simp only [List.length_drop, List.length_cons]
            simp only [List.length_cons] at hs
            omega
          have hsuf := noM_drop tmi (c :: r) prev (m + 1) hno (by omega)
          have hout'' := ih (((c :: r).take (m + 1)).getLast?)
            ((c :: r).drop (m + 1)) hfuel hsuf
          rw [noM_prev_irrel tmi hirr _ (some ']') (((c :: r).take (m + 1)).getLast?)]
          exact hout''

/-! ## Instantiating the pass lemmas at the four secret patterns -/

theorem tryMatchSk_irrel (p q : Option Char) (s : List Char) :
    tryMatchSk p s = tryMatchSk q s := rfl

theorem tryMatchAkia_irrel (p q : Option Char) (s : List Char) :
    tryMatchAkia p s = tryMatchAkia q s := rfl

theorem tryMatchAiza_irrel (p q : Option Char) (s : List Char) :
    tryMatchAiza p s = tryMatchAiza q s := rfl

theorem tryMatchJwt_nonword_prev (d : Char) (r' : List Char)
    (hd : isWordChar d = false) : tryMatchJwt (some ']') (d :: r') = none := by
  rw [tryMatchJwt]
  have hb : (isWordOpt (some ']') == isWordChar d) = true := by
    rw [hd]
    rfl
  rw [if_pos hb]

theorem noM_pass_sk (s : List Char) :
    noM tryMatchSk none (redactPass tryMatchSk s).1 = true :=
  noM_redactGo tryMatchSk
    (fun p s n h => (tryMatchSk_pos_le p s n h).1)
    tryMatchSk_transfer
    noM_ph_sk
    tryMatchSk_bracket
    (fun _ _ _ _ _ _ _ _ hq => hq)
    s.length none s (le_refl _)

theorem noM_pass_akia (s : List Char) :
    noM tryMatchAkia none (redactPass tryMatchAkia s).1 = true :=
  noM_redactGo tryMatchAkia
    (fun p s n h => (tryMatchAkia_pos_le p s n h).1)
    tryMatchAkia_transfer
    noM_ph_akia
    tryMatchAkia_bracket
    (fun _ _ _ _ _ _ _ _ hq => hq)
    s.length none s (le_refl _)

theorem noM_pass_aiza (s : List Char) :
    noM tryMatchAiza none (redactPass tryMatchAiza s).1 = true :=
  noM_redactGo tryMatchAiza
    (fun p s n h => (tryMatchAiza_pos_le p s n h).1)
    tryMatchAiza_transfer
    noM_ph_aiza
    tryMatchAiza_bracket
    (fun _ _ _ _ _ _ _ _ hq => hq)
    s.length none s (le_refl _)

theorem noM_pass_jwt (s : List Char) :
    noM tryMatchJwt none (redactPass tryMatchJwt s).1 = true :=
  noM_redactGo tryMatchJwt
    (fun p s n h => (tryMatchJwt_pos_le p s n h).1)
    tryMatchJwt_transfer
    noM_ph_jwt
    tryMatchJwt_bracket
    (fun p s n d r' _ hm hd _ =>
      tryMatchJwt_nonword_prev d r' (tryMatchJwt_after_nonword p s n hm d hd))
    s.length none s (le_refl _)

theorem noM_preserved_sk (tmj : Option Char → List Char → Option Nat)
    (hposj : ∀ p s n, tmj p s = some n → 1 ≤ n) (s : List Char)
    (h : noM tryMatchSk none s = true) :
    noM tryMatchSk none (redactPass tmj s).1 = true :=
  noM_redactGo_preserved tryMatchSk tmj hposj tryMatchSk_irrel
    tryMatchSk_transfer noM_ph_sk s.length none s (le_refl _) h

theorem noM_preserved_akia (tmj : Option Char → List Char → Option Nat)
    (hposj : ∀ p s n, tmj p s = some n → 1 ≤ n) (s : List Char)
    (h : noM tryMatchAkia none s = true) :
    noM tryMatchAkia none (redactPass tmj s).1 = true :=
  noM_redactGo_preserved tryMatchAkia tmj hposj tryMatchAkia_irrel
    tryMatchAkia_transfer noM_ph_akia s.length none s (le_refl _) h

theorem noM_preserved_aiza (tmj : Option Char → List Char → Option Nat)
    (hposj : ∀ p s n, tmj p s = some n → 1 ≤ n) (s : List Char)
    (h : noM tryMatchAiza none s = true) :
    noM tryMatchAiza none (redactPass tmj s).1 = true :=
  noM_redactGo_preserved tryMatchAiza tmj hposj tryMatchAiza_irrel
    tryMatchAiza_transfer noM_ph_aiza s.length none s (le_refl _) h

/-- No pattern matches anywhere in the output of `redactSecrets`. -/
theorem redactSecrets_noM (t : String) :
    noM tryMatchSk none (redactSecrets t).redacted.data = true ∧
    noM tryMatchAkia none (redactSecrets t).redacted.data = true ∧
    noM tryMatchAiza none (redactSecrets t).redacted.data = true ∧
    noM tryMatchJwt none (redactSecrets t).redacted.data = true := by
  have hdata : (redactSecrets t).redacted.data =
      (redactPass tryMatchJwt (redactPass tryMatchAiza (redactPass tryMatchAkia
        (redactPass tryMatchSk t.data).1).1).1).1 := rfl
  rw [hdata]
  have hposAkia : ∀ p s n, tryMatchAkia p s = some n → 1 ≤ n :=
    fun p s n h => (tryMatchAkia_pos_le p s n h).1
  have hposAiza : ∀ p s n, tryMatchAiza p s = some n → 1 ≤ n :=
    fun p s n h => (tryMatchAiza_pos_le p s n h).1
  have hposJwt : ∀ p s n, tryMatchJwt p s = some n → 1 ≤ n :=
    fun p s n h => (tryMatchJwt_pos_le p s n h).1
  refine ⟨?_, ?_, ?_, ?_⟩
  · exact noM_preserved_sk tryMatchJwt hposJwt _
      (noM_preserved_sk tryMatchAiza hposAiza _
        (noM_preserved_sk tryMatchAkia hposAkia _ (noM_pass_sk t.data)))
  · exact noM_preserved_akia tryMatchJwt hposJwt _
      (noM_preserved_akia tryMatchAiza hposAiza _ (noM_pass_akia _))
  · exact noM_preserved_aiza tryMatchJwt hposJwt _ (noM_pass_aiza _)
  · exact noM_pass_jwt _

/-- C3: the second application of `redactSecrets` makes no change and
counts zero matches; the placeholder itself matches no pattern. -/
theorem redactSecrets_idempotent (s : String) :
    redactSecrets (redactSecrets s).redacted =
      { redacted := (redactSecrets s).redacted, count := 0 } ∧
    (noM tryMatchSk none PLACEHOLDER = true ∧
     noM tryMatchAkia none PLACEHOLDER = true ∧
     noM tryMatchAiza none PLACEHOLDER = true ∧
     noM tryMatchJwt none PLACEHOLDER = true) := by
  obtain ⟨h1, h2, h3, h4⟩ := redactSecrets_noM s
  refine ⟨?_, by decide, by decide, by decide, by decide⟩
  have e1 : redactPass tryMatchSk (redactSecrets s).redacted.data =
      ((redactSecrets s).redacted.data, 0) :=
    noM_redactGo_id tryMatchSk (redactSecrets s).redacted.data.length none
      (redactSecrets s).redacted.data (le_refl _) h1
  have e2 : redactPass tryMatchAkia (redactSecrets s).redacted.data =
      ((redactSecrets s).redacted.data, 0) :=
    noM_redactGo_id tryMatchAkia (redactSecrets s).redacted.data.length none
      (redactSecrets s).redacted.data (le_refl _) h2
  have e3 : redactPass tryMatchAiza (redactSecrets s).redacted.data =
      ((redactSecrets s).redacted.data, 0) :=
    noM_redactGo_id tryMatchAiza (redactSecrets s).redacted.data.length none
      (redactSecrets s).redacted.data (le_refl _) h3
  have e4 : redactPass tryMatchJwt (redactSecrets s).redacted.data =
      ((redactSecrets s).redacted.data, 0) :=
    noM_redactGo_id tryMatchJwt (redactSecrets s).redacted.data.length none
      (redactSecrets s).redacted.data (le_refl _) h4
  have hunf : redactSecrets (redactSecrets s).redacted =
      { redacted := ⟨(redactPass tryMatchJwt (redactPass tryMatchAiza
          (redactPass tryMatchAkia
            (redactPass tryMatchSk (redactSecrets s).redacted.data).1).1).1).1⟩,
        count := (redactPass tryMatchSk (redactSecrets s).redacted.data).2 +
          (redactPass tryMatchAkia
            (redactPass tryMatchSk (redactSecrets s).redacted.data).1).2 +
          (redactPass tryMatchAiza (redactPass tryMatchAkia
            (redactPass tryMatchSk (redactSecrets s).redacted.data).1).1).2 +
          (redactPass tryMatchJwt (redactPass tryMatchAiza (redactPass tryMatchAkia
            (redactPass tryMatchSk (redactSecrets s).redacted.data).1).1).1).2 } := rfl
  rw [hunf]
  simp only [e1, e2, e3, e4]

/-! ## formatter.ts: tree building, rendering, and document assembly

`localeCompare` (and the default array sort on strings) is modelled as
lexicographic comparison of the character sequences; `Array.sort` /
`[...].sort` is a stable sort, modelled by `List.insertionSort`.  The
tokenizer (`js-tiktoken`, an external library) is abstracted as a
function `encode : String → Nat` giving each content its token count;
the `JSON.parse`-based package.json tech-stack extraction is abstracted
as `parseTech : String → List String` giving the insertion-ordered
detected names.  Tree recursion is expressed with an explicit fuel,
passed a bound that dominates the tree height. -/

/-- Lexicographic comparison on character lists (the model of
`a.localeCompare(b) <= 0`). -/
def lexLe : List Char → List Char → Bool
  | [], _ => true
  | _ :: _, [] => false
  | x :: xs, y :: ys => if x < y then true else if y < x then false else lexLe xs ys

/-- Ordering used by `[...files].sort((a, b) => a.path.localeCompare(b.path))`. -/
def pathLe (a b : ScannedFile) : Prop := lexLe a.path.data b.path.data = true

instance : DecidableRel pathLe := fun a b =>
  inferInstanceAs (Decidable (lexLe a.path.data b.path.data = true))

/-- The sorted copy of the file list taken at the top of `formatOutput`. -/
def sortByPath (files : List ScannedFile) : List ScannedFile :=
  List.insertionSort pathLe files

/-- `TreeNode` from formatter.ts; `children` is an insertion-ordered
map. -/
inductive TreeNode where
  | node (name : String) (children : List (String × TreeNode)) (file : Option ScannedFile)

def TreeNode.name : TreeNode → String
  | .node n _ _ => n

def TreeNode.children : TreeNode → List (String × TreeNode)
  | .node _ c _ => c

def TreeNode.fileOf : TreeNode → Option ScannedFile
  | .node _ _ f => f

/-- `current.children.get(segment)`. -/
def getChild : List (String × TreeNode) → String → Option TreeNode
  | [], _ => none
  | e :: r, seg => if e.1 == seg then some e.2 else getChild r seg

/-- `current.children.set(segment, t)`: overwrite in place if present,
else append (map insertion order). -/
def setChild : List (String × TreeNode) → String → TreeNode → List (String × TreeNode)
  | [], seg, t => [(seg, t)]
  | e :: r, seg, t => if e.1 == seg then (seg, t) :: r else e :: setChild r seg t

/-- `file.path.split("/").filter(Boolean)`. -/
def strSegs (p : String) : List String :=
  (pathSegs p).map (fun l => ⟨l⟩)

/-- The inner loop of `buildTree` for one file: walk the segments,
creating missing children, and set `file` on the node of the last
segment. -/
def insertPath : TreeNode → List String → ScannedFile → TreeNode
  | n, [], _ => n
  | .node nm children fl, seg :: rest, file =>
    let cur0 := match getChild children seg with
      | some c => c
      | none => TreeNode.node seg [] none
    let cur1 := if rest.isEmpty then TreeNode.node cur0.name cur0.children (some file)
      else cur0
    TreeNode.node nm (setChild children seg (insertPath cur1 rest file)) fl

/-- `buildTree` from formatter.ts. -/
def buildTree (files : List ScannedFile) : TreeNode :=
  files.foldl (fun root file => insertPath root (strSegs file.path) file)
    (TreeNode.node "" [] none)

/-- The child ordering of `renderTree`:
`(a, b) => a.name.localeCompare(b.name)`. -/
def nodeLe (a b : TreeNode) : Prop := lexLe a.name.data b.name.data = true

instance : DecidableRel nodeLe := fun a b =>
  inferInstanceAs (Decidable (lexLe a.name.data b.name.data = true))

/-- `Array.from(node.children.values()).sort(...)` -/
def sortedChildren (n : TreeNode) : List TreeNode :=
  List.insertionSort nodeLe (n.children.map (fun e => e.2))

/-- The label of one rendered child, with the binary / oversized
annotations. -/
def childLabel (child : TreeNode) : String :=
  child.name ++
    match child.fileOf with
    | some f =>
      if f.isBinary then " [binary]"
      else if f.isOversized then " [skipped >100KB]"
      else ""
    | none => ""

/-- `lines.join("\n")` / `parts.join("\n")`. -/
def joinNl : List String → String
  | [] => ""
  | [p] => p
  | p :: r => p ++ "\n" ++ joinNl r

/-- The `entries.forEach` body of `renderTree`: one line per child
(connector `"└── "` for the last entry, `"├── "` otherwise), followed by
the subtree text as one element when the child has children; `rt`
renders a subtree. -/
def renderEntries (rt : TreeNode → String → String) (pre : String) :
    List TreeNode → List String
  | [] => []
  | child :: rest =>
    let last := rest.isEmpty
    let branch := if last then "└── " else "├── "
    let nextPrefix := pre ++ (if last then "    " else "│   ")
    ((pre ++ branch ++ childLabel child) ::
      (if child.children.isEmpty then [] else [rt child nextPrefix]))
      ++ renderEntries rt pre rest

/-- `renderTree`, fuelled: each level consumes one unit, so any fuel at
least the tree height renders in full (the fuel-out value is never
reached from `renderTree` below). -/
def renderTreeGo : Nat → TreeNode → String → String
  | 0, _, _ => ""
  | fuel + 1, node, pre =>
    joinNl (renderEntries (renderTreeGo fuel) pre (sortedChildren node))

/-- One more than the number of segments of the longest path: a bound
on the height of `buildTree`'s result. -/
def depthBound (files : List ScannedFile) : Nat :=
  files.foldl (fun m f => max m (strSegs f.path).length) 0 + 1

/-- `renderTree(buildTree(sortedFiles))` as `formatOutput` invokes it. -/
def renderTreeOf (files : List ScannedFile) : String :=
  renderTreeGo (depthBound files) (buildTree files) ""

/-! ### Secret map, tech stack, headers, sections -/

/-- `Map<string, string>` lookup. -/
def mapGetS : List (String × String) → String → Option String
  | [], _ => none
  | e :: r, k => if e.1 == k then some e.2 else mapGetS r k

/-- `Map<string, string>.set`: overwrite in place if the key is
present, else append (map insertion order). -/
def mapSetS : List (String × String) → String → String → List (String × String)
  | [], k, v => [(k, v)]
  | e :: r, k, v => if e.1 == k then (k, v) :: r else e :: mapSetS r k v

/-- The guard `file.content && !file.isBinary && !file.isOversized`
(an empty string is falsy). -/
def hasUsableContent (f : ScannedFile) : Bool :=
  (match f.content with
   | none => false
   | some c => !c.data.isEmpty) && !f.isBinary && !f.isOversized

/-- One iteration of the redaction loop of `formatOutput`. -/
def redStep (acc : List (String × String) × Nat) (file : ScannedFile) :
    List (String × String) × Nat :=
  if hasUsableContent file then
    let r := redactSecrets (file.content.getD "")
    (mapSetS acc.1 file.path r.redacted, acc.2 + r.count)
  else acc

/-- The redaction loop of `formatOutput`: the redacted text of every
usable file keyed by path, and the total match count. -/
def buildRedactedByPath (sortedFiles : List ScannedFile) :
    List (String × String) × Nat :=
  sortedFiles.foldl redStep ([], 0)

/-- `computeFileTokenStats` from formatter.ts, over the abstract
tokenizer. -/
def computeFileTokenStats (encode : String → Nat) (files : List ScannedFile)
    (redactedByPath : List (String × String)) : List FileTokenStat × Nat :=
  files.foldl
    (fun acc file =>
      if !hasUsableContent file then
        (acc.1 ++ [{ path := file.path, tokens := 0 }], acc.2)
      else
        let contentForTokens :=
          (mapGetS redactedByPath file.path).getD (file.content.getD "")
        let tokens := encode contentForTokens
        (acc.1 ++ [{ path := file.path, tokens := tokens }], acc.2 + tokens))
    ([], 0)

/-- The package.json pick:
`sortedFiles.find(f => f.path === "package.json" && typeof f.content === "string")`,
with the parse abstracted. -/
def techStackOf (parseTech : String → List String) (sortedFiles : List ScannedFile) :
    List String :=
  match sortedFiles.find? (fun f => f.path == "package.json" && f.content.isSome) with
  | some f => parseTech (f.content.getD "")
  | none => []

inductive OutputFormat where
  | markdown
  | xml
deriving DecidableEq

inductive PersonaType where
  | architect
  | security
  | refactor
deriving DecidableEq

structure FormatOptions where
  format : OutputFormat
  rootDir : String
  persona : Option PersonaType
  task : Option String

def getPersonaHeader : PersonaType → String
  | .architect => "You are a Senior Software Architect. Review this codebase for modularity, scalability, and adherence to SOLID principles."
  | .security => "You are a Cyber Security Auditor. Scan this code for XSS, SQL injection, and insecure dependency patterns."
  | .refactor => "You are a Clean Code Expert. Suggest ways to reduce complexity and improve readability."

/-- `options.task && options.task.trim().length > 0`. -/
def taskActive (options : FormatOptions) : Bool :=
  match options.task with
  | some t => !t.trim.isEmpty
  | none => false

/-- String ordering for `Array.from(techStack).sort()`. -/
def strLexLe (a b : String) : Prop := lexLe a.data b.data = true

instance : DecidableRel strLexLe := fun a b =>
  inferInstanceAs (Decidable (lexLe a.data b.data = true))

/-- `headerLines` of `formatOutput`, in push order: persona?, root,
file and token totals, tech stack?, task status?, safety line. -/
def headerLines (options : FormatOptions) (totalFiles totalTokens : Nat)
    (techStack : List String) (totalRedactions : Nat) : List String :=
  (match options.persona with
   | some p => [getPersonaHeader p]
   | none => [])
  ++ ["Root: " ++ options.rootDir,
      "Total Files: " ++ toString totalFiles,
      "Total Tokens: " ++ toString totalTokens]
  ++ (if techStack.isEmpty then []
      else ["Tech Stack: " ++
        String.intercalate ", " (List.insertionSort strLexLe techStack)])
  ++ (if taskActive options then ["Task Status: Pending (See end of file)"] else [])
  ++ [if totalRedactions > 0 then
        "Safety: " ++ toString totalRedactions ++
          " secrets were detected and automatically redacted."
      else
        "Safety: No secrets were detected. Manual review is still recommended."]

/-- One global single-character replacement (each `xmlEscape` step). -/
def replaceChar (c : Char) (rep : List Char) (s : List Char) : List Char :=
  s.foldr (fun x acc => if x = c then rep ++ acc else x :: acc) []

/-- `xmlEscape`: the five sequential replaces, `&` first. -/
def xmlEscape (v : String) : String :=
  ⟨replaceChar (Char.ofNat 39) "&apos;".data
    (replaceChar (Char.ofNat 34) "&quot;".data
      (replaceChar (Char.ofNat 62) "&gt;".data
        (replaceChar (Char.ofNat 60) "&lt;".data
          (replaceChar (Char.ofNat 38) "&amp;".data v.data))))⟩

/-- `path.extname`: the extension of the basename from its last dot; a
dot in first position (or none) gives the empty string. -/
def extname (p : String) : String :=
  let b := ((p.data.reverse).takeWhile (fun c => c ≠ '/')).reverse
  match (b.reverse).findIdx? (fun c => c = '.') with
  | none => ""
  | some j =>
    let i := b.length - 1 - j
    if i = 0 then "" else ⟨b.drop i⟩

/-- `toLowerCase` on the character sequence (ASCII case mapping). -/
def toLowerStr (s : String) : String := ⟨s.data.map Char.toLower⟩

/-- `inferLanguage` from formatter.ts. -/
def inferLanguage (filePath : String) : Option String :=
  let ext := toLowerStr (extname filePath)
  if ext = ".ts" ∨ ext = ".tsx" then some "ts"
  else if ext = ".js" ∨ ext = ".cjs" ∨ ext = ".mjs" then some "js"
  else if ext = ".json" then some "json"
  else if ext = ".md" then some "md"
  else if ext = ".py" then some "py"
  else if ext = ".java" then some "java"
  else if ext = ".go" then some "go"
  else if ext = ".rs" then some "rust"
  else if ext = ".yml" ∨ ext = ".yaml" then some "yaml"
  else none

/-- `slugifyHeading`: lowercase, then `replace(/[^a-z0-9]+/g, "")` — with
an empty replacement, deleting every run of non-matching characters is
deleting every non-matching character. -/
def slugifyHeading (value : String) : String :=
  ⟨(toLowerStr value).data.filter (fun c =>
    ('a' ≤ c && c ≤ 'z') || ('0' ≤ c && c ≤ '9'))⟩

/-- The `<file …>…</file>` elements of the xml branch. -/
def xmlFileParts (redactedByPath : List (String × String))
    (sortedFiles : List ScannedFile) : List String :=
  sortedFiles.map (fun file =>
    let attrs := "path=\"" ++ xmlEscape file.path ++ "\""
    if !hasUsableContent file then
      let note := if file.isBinary then "(binary file, contents not included)"
        else if file.isOversized then "(file >100KB, contents skipped)"
        else "(no content)"
      "<file " ++ attrs ++ ">" ++ xmlEscape note ++ "</file>"
    else
      "<file " ++ attrs ++ ">" ++
        xmlEscape ((mapGetS redactedByPath file.path).getD (file.content.getD ""))
        ++ "</file>")

/-- The xml branch's parts, in push order. -/
def xmlParts (options : FormatOptions) (sortedFiles : List ScannedFile)
    (redactedByPath : List (String × String)) (treeText headerText : String) :
    List String :=
  ["<epistle>", "<tree><![CDATA[", treeText, "]]></tree>",
   "<metadata><![CDATA[", headerText, "]]></metadata>"]
  ++ (if taskActive options then
        ["<task><![CDATA[", options.task.getD "", "]]></task>"]
      else [])
  ++ xmlFileParts redactedByPath sortedFiles
  ++ ["</epistle>"]

/-- The table-of-contents lines (files without usable content are
skipped). -/
def tocLines (sortedFiles : List ScannedFile) : List String :=
  (sortedFiles.filter hasUsableContent).map (fun file =>
    "- [" ++ file.path ++ "](#" ++ slugifyHeading file.path ++ ")")

/-- One markdown file section: heading with explicit anchor, then a
note for binary / oversized / empty files, or the fenced (redacted)
content. -/
def mdSection (redactedByPath : List (String × String)) (file : ScannedFile) :
    List String :=
  let slug := slugifyHeading file.path
  let head := "## " ++ file.path ++ " \x7b#" ++ slug ++ "\x7d"
  if !hasUsableContent file then
    let note := if file.isBinary then "(binary file, contents not included)"
      else if file.isOversized then "(file >100KB, contents skipped)"
      else "(no content)"
    [head, "", note, ""]
  else
    let fence := match inferLanguage file.path with
      | some l => "```" ++ l
      | none => "```"
    [head, "", fence,
      (mapGetS redactedByPath file.path).getD (file.content.getD ""), "```", ""]

/-- The markdown branch's parts, in push order. -/
def mdParts (options : FormatOptions) (sortedFiles : List ScannedFile)
    (redactedByPath : List (String × String)) (treeText headerText : String) :
    List String :=
  ["```"] ++ (if treeText.isEmpty then [] else [treeText]) ++ ["```", ""]
  ++ ["## Table of Contents", ""] ++ tocLines sortedFiles ++ [""]
  ++ ["```", headerText, "```", ""]
  ++ sortedFiles.flatMap (mdSection redactedByPath)
  ++ (if taskActive options then
        ["## User Task / Instructions", "", "```", options.task.getD "", "```", ""]
      else [])

structure FormatResult where
  output : String
  totalTokens : Nat
  fileTokenStats : List FileTokenStat
  dirTokenMap : List (String × Nat)

/-- `formatOutput` from formatter.ts over the abstract tokenizer and
package.json parser. -/
def formatOutput (encode : String → Nat) (parseTech : String → List String)
    (files : List ScannedFile) (options : FormatOptions) : FormatResult :=
  let sortedFiles := sortByPath files
  let treeText := renderTreeOf sortedFiles
  let totalFiles := sortedFiles.length
  let rdp := buildRedactedByPath sortedFiles
  let ts := computeFileTokenStats encode sortedFiles rdp.1
  let dirTokenMap := aggregateDirectoryTokens ts.1
  let headerText := joinNl (headerLines options totalFiles ts.2
    (techStackOf parseTech sortedFiles) rdp.2)
  let parts := match options.format with
    | .xml => xmlParts options sortedFiles rdp.1 treeText headerText
    | .markdown => mdParts options sortedFiles rdp.1 treeText headerText
  { output := joinNl parts,
    totalTokens := ts.2,
    fileTokenStats := ts.1,
    dirTokenMap := dirTokenMap }

/-- Occurrences of `pat` inside `s` (number of starting positions). -/
def countSub (pat s : List Char) : Nat :=
  (List.range (s.length + 1)).countP (fun i => (s.drop i).take pat.length == pat)

/-! ## Order lemmas for the lexicographic comparator -/

theorem lexLe_total : ∀ a b : List Char, lexLe a b = true ∨ lexLe b a = true := by
  intro a
  induction a with
  | nil => intro b; exact Or.inl rfl
  | cons x xs ih =>
    intro b
    cases b with
    | nil => exact Or.inr rfl
    | cons y ys =>
      rw [lexLe, lexLe]
      by_cases hxy : x < y
      · left
        rw [if_pos hxy]
      · by_cases hyx : y < x
        · right
          rw [if_pos hyx]
        · rw [if_neg hxy, if_neg hyx, if_neg hyx, if_neg hxy]
          exact ih ys

theorem lexLe_trans : ∀ a b c : List Char,
    lexLe a b = true → lexLe b c = true → lexLe a c = true := by
  intro a
  induction a with
  | nil => intro b c _ _; rfl
  | cons x xs ih =>
    intro b c hab hbc
    cases b with
    | nil => simp [lexLe] at hab
    | cons y ys =>
      cases c with
      | nil => simp [lexLe] at hbc
      | cons z zs =>
        rw [lexLe] at hab hbc ⊢
        by_cases hxy : x < y
        · by_cases hyz : y < z
          · rw [if_pos (lt_trans hxy hyz)]
          · by_cases hzy : z < y
            · rw [if_neg hyz, if_pos hzy] at hbc
              exact absurd hbc (by simp)
            · have he : y = z := le_antisymm (not_lt.mp hzy) (not_lt.mp hyz)
              rw [if_pos (he ▸ hxy)]
        · by_cases hyx : y < x
          · rw [if_neg hxy, if_pos hyx] at hab
            exact absurd hab (by simp)
          · have he : x = y := le_antisymm (not_lt.mp hyx) (not_lt.mp hxy)
            subst he
            rw [if_neg hxy, if_neg hyx] at hab
            by_cases hxz : x < z
            · rw [if_pos hxz]
            · by_cases hzx : z < x
              · rw [if_neg hxz, if_pos hzx] at hbc
                exact absurd hbc (by simp)
              · rw [if_neg hxz, if_neg hzx] at hbc ⊢
                exact ih ys zs hab hbc

theorem lexLe_antisymm : ∀ a b : List Char,
    lexLe a b = true → lexLe b a = true → a = b := by
  intro a
  induction a with
  | nil =>
    intro b _ hba
    cases b with
    | nil => rfl
    | cons y ys => simp [lexLe] at hba
  | cons x xs ih =>
    intro b hab hba
    cases b with
    | nil => simp [lexLe] at hab
    | cons y ys =>
      rw [lexLe] at hab hba
      by_cases hxy : x < y
      · rw [if_neg (lt_asymm hxy), if_pos hxy] at hba
        exact absurd hba (by simp)
      · by_cases hyx : y < x
        · rw [if_neg hxy, if_pos hyx] at hab
          exact absurd hab (by simp)
        · have he : x = y := le_antisymm (not_lt.mp hyx) (not_lt.mp hxy)
          subst he
          rw [if_neg hxy, if_neg hxy] at hab hba
          rw [ih ys hab hba]

instance : IsTotal ScannedFile pathLe :=
  ⟨fun a b => lexLe_total a.path.data b.path.data⟩

instance : IsTrans ScannedFile pathLe :=
  ⟨fun a b c => lexLe_trans a.path.data b.path.data c.path.data⟩

instance : IsTotal TreeNode nodeLe :=
  ⟨fun a b => lexLe_total a.name.data b.name.data⟩

instance : IsTrans TreeNode nodeLe :=
  ⟨fun a b c => lexLe_trans a.name.data b.name.data c.name.data⟩

theorem string_eq_of_data (a b : String) (h : a.data = b.data) : a = b := by
  cases a
  cases b
  exact congrArg String.mk h

/-- `pathLe` strengthened with path distinctness: antisymmetric, so two
sorted permutations with pairwise-distinct paths coincide. -/
def pathLeNe (a b : ScannedFile) : Prop := pathLe a b ∧ a.path ≠ b.path

instance : IsAntisymm ScannedFile pathLeNe :=
  ⟨fun a b h h' =>
    absurd (string_eq_of_data a.path b.path (lexLe_antisymm _ _ h.1 h'.1)) h.2⟩

theorem sortByPath_eq_of_perm (l₁ l₂ : List ScannedFile)
    (hperm : l₁.Perm l₂) (hnd : (l₁.map ScannedFile.path).Nodup) :
    sortByPath l₁ = sortByPath l₂ := by
  have hp₁ : (sortByPath l₁).Perm l₁ := List.perm_insertionSort pathLe l₁
  have hp₂ : (sortByPath l₂).Perm l₂ := List.perm_insertionSort pathLe l₂
  have hperm' : (sortByPath l₁).Perm (sortByPath l₂) :=
    hp₁.trans (hperm.trans hp₂.symm)
  have hnd₁ : ((sortByPath l₁).map ScannedFile.path).Nodup :=
    ((hp₁.map ScannedFile.path).nodup_iff).mpr hnd
  have hnd₂ : ((sortByPath l₂).map ScannedFile.path).Nodup :=
    ((hperm'.map ScannedFile.path).nodup_iff).mp hnd₁
  have hpw₁ : (sortByPath l₁).Pairwise (fun a b => a.path ≠ b.path) :=
    List.pairwise_map.mp hnd₁
  have hpw₂ : (sortByPath l₂).Pairwise (fun a b => a.path ≠ b.path) :=
    List.pairwise_map.mp hnd₂
  have hs₁ : (sortByPath l₁).Sorted pathLe := List.sorted_insertionSort pathLe l₁
  have hs₂ : (sortByPath l₂).Sorted pathLe := List.sorted_insertionSort pathLe l₂
  have hst₁ : (sortByPath l₁).Sorted pathLeNe :=
    (hs₁.and hpw₁).imp (fun h => ⟨h.1, h.2⟩)
  have hst₂ : (sortByPath l₂).Sorted pathLeNe :=
    (hs₂.and hpw₂).imp (fun h => ⟨h.1, h.2⟩)
  exact List.eq_of_perm_of_sorted hperm' hst₁ hst₂

/-- C2: at every level the rendered children are the name-sorted
children (and that list is sorted lexicographically); the file set
`["b.ts", "a/z.ts"]` renders with the directory `a` before the file
`b.ts`; and the tree text built from the sorted copy is invariant under
permutation of a file set with distinct paths. -/
theorem renderTree_ordering :
    (∀ node : TreeNode, (sortedChildren node).Sorted nodeLe) ∧
    (∀ (fuel : Nat) (node : TreeNode) (pre : String),
      renderTreeGo (fuel + 1) node pre =
        joinNl (renderEntries (renderTreeGo fuel) pre (sortedChildren node))) ∧
    renderTreeOf [⟨"b.ts", 1, false, false, some "x"⟩,
        ⟨"a/z.ts", 1, false, false, some "y"⟩] =
      "├── a\n│   └── z.ts\n└── b.ts" ∧
    (∀ l₁ l₂ : List ScannedFile, l₁.Perm l₂ →
      (l₁.map ScannedFile.path).Nodup →
      renderTreeOf (sortByPath l₁) = renderTreeOf (sortByPath l₂)) := by
  refine ⟨?_, fun _ _ _ => rfl, by decide, ?_⟩
  · intro node
    exact List.sorted_insertionSort nodeLe _
  · intro l₁ l₂ hperm hnd
    rw [sortByPath_eq_of_perm l₁ l₂ hperm hnd]

/-- Witness for C2 at a two-file set and its swap. -/
theorem renderTree_ordering_witness :
    ([⟨"b.ts", 1, false, false, some "x"⟩,
        ⟨"a/z.ts", 1, false, false, some "y"⟩] : List ScannedFile).Perm
      [⟨"a/z.ts", 1, false, false, some "y"⟩,
        ⟨"b.ts", 1, false, false, some "x"⟩] ∧
    renderTreeOf (sortByPath [⟨"b.ts", 1, false, false, some "x"⟩,
        ⟨"a/z.ts", 1, false, false, some "y"⟩]) =
      renderTreeOf (sortByPath [⟨"a/z.ts", 1, false, false, some "y"⟩,
        ⟨"b.ts", 1, false, false, some "x"⟩]) :=
  ⟨by decide,
    renderTree_ordering.2.2.2 _ _ (by decide) (by decide)⟩

/-- C9 (amended: the file paths are pairwise distinct, as scanProject
guarantees): `formatOutput` sorts a copy of its input by path before
anything else, so it is invariant under permutation of the file list. -/
theorem formatOutput_perm_invariant (encode : String → Nat)
    (parseTech : String → List String) (l₁ l₂ : List ScannedFile)
    (options : FormatOptions) (hperm : l₁.Perm l₂)
    (hnd : (l₁.map ScannedFile.path).Nodup) :
    formatOutput encode parseTech l₁ options =
      formatOutput encode parseTech l₂ options := by
  unfold formatOutput
  rw [sortByPath_eq_of_perm l₁ l₂ hperm hnd]

/-- Witness for C9 at a concrete two-file set and its swap. -/
theorem formatOutput_perm_invariant_witness :
    formatOutput (fun s => s.length) (fun _ => [])
      [⟨"a.ts", 1, false, false, some "x"⟩, ⟨"b.ts", 1, false, false, some "y"⟩]
      ⟨OutputFormat.markdown, "r", none, none⟩ =
    formatOutput (fun s => s.length) (fun _ => [])
      [⟨"b.ts", 1, false, false, some "y"⟩, ⟨"a.ts", 1, false, false, some "x"⟩]
      ⟨OutputFormat.markdown, "r", none, none⟩ :=
  formatOutput_perm_invariant (fun s => s.length) (fun _ => []) _ _
    ⟨OutputFormat.markdown, "r", none, none⟩ (by decide) (by decide)

set_option maxRecDepth 100000 in
/-- C9, counterexample to the unrestricted statement: two files sharing
one path.  The redaction map is keyed by path, so the later file's
content wins for both rendered sections, and swapping the two files
changes the document. -/
theorem formatOutput_not_perm_invariant :
    ([⟨"p", 1, false, false, some "x"⟩,
        ⟨"p", 1, false, false, some "y"⟩] : List ScannedFile).Perm
      [⟨"p", 1, false, false, some "y"⟩, ⟨"p", 1, false, false, some "x"⟩] ∧
    (formatOutput (fun s => s.length) (fun _ => [])
        [⟨"p", 1, false, false, some "x"⟩, ⟨"p", 1, false, false, some "y"⟩]
        ⟨OutputFormat.markdown, "r", none, none⟩).output ≠
      (formatOutput (fun s => s.length) (fun _ => [])
        [⟨"p", 1, false, false, some "y"⟩, ⟨"p", 1, false, false, some "x"⟩]
        ⟨OutputFormat.markdown, "r", none, none⟩).output :=
  ⟨by decide, by decide⟩

set_option maxRecDepth 100000 in
/-- C10: the anchor slug map is not injective — `a/b.ts` and `ab.ts`
both slugify to `abts`, and in the document for that file set the
table-of-contents anchor `(#abts)` and the heading anchor `{#abts}`
each occur twice. -/
theorem slugifyHeading_not_injective :
    slugifyHeading "a/b.ts" = "abts" ∧ slugifyHeading "ab.ts" = "abts" ∧
    ("a/b.ts" : String) ≠ "ab.ts" ∧
    countSub "(#abts)".data ((formatOutput (fun s => s.length) (fun _ => [])
      [⟨"a/b.ts", 1, false, false, some "x"⟩, ⟨"ab.ts", 1, false, false, some "y"⟩]
      ⟨OutputFormat.markdown, "r", none, none⟩).output).data = 2 ∧
    countSub "\x7b#abts\x7d".data ((formatOutput (fun s => s.length) (fun _ => [])
      [⟨"a/b.ts", 1, false, false, some "x"⟩, ⟨"ab.ts", 1, false, false, some "y"⟩]
      ⟨OutputFormat.markdown, "r", none, none⟩).output).data = 2 :=
  ⟨by decide, by decide, by decide, by decide, by decide⟩

/-! ## A present match makes the pass count positive, and the
placeholder survives the later passes -/

theorem redactGo_count_pos (tm : Option Char → List Char → Option Nat)
    (hpos : ∀ p s n, tm p s = some n → 1 ≤ n) :
    ∀ (fuel : Nat) (prev : Option Char) (s : List Char), s.length ≤ fuel →
      noM tm prev s = false → 1 ≤ (redactGo tm fuel prev s).2 := by
  intro fuel
  induction fuel with
  | zero =>
    intro prev s hs hno
    cases s with
    | nil => simp [noM] at hno
    | cons c r => simp at hs
  | succ f ih =>
    intro prev s hs hno
    cases s with
    | nil => simp [noM] at hno
    | cons c r =>
      rcases htm : tm prev (c :: r) with _ | n
      · have hred : redactGo tm (f + 1) prev (c :: r) =
            (c :: (redactGo tm f (some c) r).1, (redactGo tm f (some c) r).2) := by
          rw [redactGo, htm]
        rw [hred]
        rw [noM, htm] at hno
        simp only [Option.isNone_none, Bool.true_and] at hno
        exact ih (some c) r (by simp at hs; omega) hno
      · rcases n with _ | m
        · exact absurd (hpos _ _ _ htm) (by omega)
        · have hred : redactGo tm (f + 1) prev (c :: r) =
              (PLACEHOLDER ++ (redactGo tm f (((c :: r).take (m + 1)).getLast?)
                  ((c :: r).drop (m + 1))).1,
                (redactGo tm f (((c :: r).take (m + 1)).getLast?)
                  ((c :: r).drop (m + 1))).2 + 1) := by
            rw [redactGo, htm]
          rw [hred]
          omega

/-- A position where the matcher succeeds regardless of context makes
`noM` false. -/
theorem noM_false_of_match (tm : Option Char → List Char → Option Nat)
    (d : Char) (w : List Char) (n : Nat)
    (hv : ∀ q : Option Char, tm q (d :: w) = some n) :
    ∀ (u : List Char) (p : Option Char), noM tm p (u ++ d :: w) = false := by
  intro u
  induction u with
  | nil =>
    intro p
    rw [List.nil_append, noM, hv p]
    rfl
  | cons a u' ih =>
    intro p
    rw [List.cons_append, noM, ih (some a)]
    simp

/-- The sk pattern matches at its literal head when the following
alphanumeric run is long enough. -/
theorem tryMatchSk_at (q : Option Char) (rest : List Char)
    (h : 16 ≤ runLen isAlnumChar rest) :
    tryMatchSk q ('s' :: 'k' :: '-' :: rest) = some (3 + runLen isAlnumChar rest) := by
  rw [tryMatchSk]
  rw [if_pos h]

/-- The context character written by a match: the last character of the
consumed span (or the incoming context for an empty span). -/
def lastOf (p : Option Char) (T : List Char) : Option Char :=
  match T.getLast? with
  | some c => some c
  | none => p

theorem lastOf_cons (p : Option Char) (c : Char) (X : List Char) :
    lastOf p (c :: X) = lastOf (some c) X := by
  cases X with
  | nil => rfl
  | cons x xr =>
    rw [lastOf, lastOf, List.getLast?_cons_cons]
    rcases h : (x :: xr).getLast? with _ | d
    · simp [List.getLast?_eq_none_iff] at h
    · rfl

/-- A span at which the matcher fails at every position is copied
verbatim by the scan. -/
theorem redactGo_copy (tm : Option Char → List Char → Option Nat) :
    ∀ (T : List Char) (g : Nat) (p : Option Char) (b : List Char),
      (∀ j, j < T.length → tm (lastOf p (T.take j)) (T.drop j ++ b) = none) →
      (redactGo tm (g + T.length) p (T ++ b)).1 =
        T ++ (redactGo tm g (lastOf p T) b).1 := by
  intro T
  induction T with
  | nil =>
    intro g p b _
    simp only [List.length_nil, Nat.add_zero, List.nil_append]
    rfl
  | cons c T' ih =>
    intro g p b H
    have hhead : tm p ((c :: T') ++ b) = none := by
      have := H 0 (by simp)
      simpa using this
    have hfe : g + (c :: T').length = (g + T'.length) + 1 := by
      simp only [List.length_cons]
      omega
    rw [hfe]
    have hred : redactGo tm ((g + T'.length) + 1) p (c :: (T' ++ b)) =
        (c :: (redactGo tm (g + T'.length) (some c) (T' ++ b)).1,
          (redactGo tm (g + T'.length) (some c) (T' ++ b)).2) := by
      rw [redactGo]
      rw [show tm p (c :: (T' ++ b)) = none from hhead]
    rw [List.cons_append, hred]
    have H' : ∀ j, j < T'.length → tm (lastOf (some c) (T'.take j)) (T'.drop j ++ b) = none := by
      intro j hj
      have := H (j + 1) (by simp; omega)
      rw [List.take_succ_cons, lastOf_cons, List.drop_succ_cons] at this
      exact this
    rw [ih g (some c) b H', lastOf_cons]
    rfl

/-- If the matcher fails at every interior position of the placeholder
(for arbitrary following text), any placeholder occurrence survives a
pass. -/
theorem redactGo_ph_preserved (tm : Option Char → List Char → Option Nat)
    (hfail : ∀ (p : Option Char) (b : List Char) (j : Nat), j < 16 →
      tm (lastOf p ((PLACEHOLDER.drop 1).take j)) ((PLACEHOLDER.drop 1).drop j ++ b) = none) :
    ∀ (fuel : Nat) (prev : Option Char) (s : List Char), s.length ≤ fuel →
      PLACEHOLDER <:+: s → PLACEHOLDER <:+: (redactGo tm fuel prev s).1 := by
  intro fuel
  induction fuel with
  | zero =>
    intro prev s hs hin
    cases s with
    | nil =>
      exact absurd (List.eq_nil_of_infix_nil hin) (by rw [PLACEHOLDER_chars]; simp)
    | cons c r => simp at hs
  | succ f ih =>
    intro prev s hs hin
    cases s with
    | nil =>
      exact absurd (List.eq_nil_of_infix_nil hin) (by rw [PLACEHOLDER_chars]; simp)
    | cons c r =>
      rcases htm : tm prev (c :: r) with _ | n
      · have hred : redactGo tm (f + 1) prev (c :: r) =
            (c :: (redactGo tm f (some c) r).1, (redactGo tm f (some c) r).2) := by
          rw [redactGo, htm]
        rw [hred]
        rcases List.infix_cons_iff.mp hin with hpre | hinr
        · -- the placeholder starts at the head: its 16-character tail is
          -- copied verbatim, so the output starts with the placeholder
          have hc : c = '[' := by
            rcases hpre with ⟨t, ht⟩
            rw [PLACEHOLDER_chars] at ht
            injection ht with h1 _
            exact h1.symm
          subst hc
          rcases hpre with ⟨b, hb⟩
          have hbr : r = PLACEHOLDER.drop 1 ++ b := by
            rw [PLACEHOLDER_chars] at hb ⊢
            injection hb with _ h2
            rw [← h2]
            rfl
          have hlen : r.length = 16 + b.length := by
            rw [hbr, PLACEHOLDER_chars]
            simp
            omega
          have hfg : ∃ g, f = g + 16 := by
            refine ⟨f - 16, ?_⟩
            simp only [List.length_cons] at hs
            omega
          rcases hfg with ⟨g, rfl⟩
          have hT : (PLACEHOLDER.drop 1).length = 16 := by
            rw [PLACEHOLDER_chars]
            rfl
          have hcopy := redactGo_copy tm (PLACEHOLDER.drop 1) g (some '[') b
            (fun j hj => hfail (some '[') b j (by rw [hT] at hj; exact hj))
          rw [hT] at hcopy
          rw [hbr, hcopy]
          refine ⟨[], (redactGo tm g (lastOf (some '[') (PLACEHOLDER.drop 1)) b).1, ?_⟩
          rw [List.nil_append, ← List.cons_append]
          rw [PLACEHOLDER_chars]
          rfl
        · rcases ih (some c) r (by simp at hs; omega) hinr with ⟨x, y, hxy⟩
          exact ⟨c :: x, y, by rw [← hxy]; simp⟩
      · rcases n with _ | m
        · have hred : redactGo tm (f + 1) prev (c :: r) =
              (c :: (redactGo tm f (some c) r).1, (redactGo tm f (some c) r).2) := by
            rw [redactGo, htm]
          rw [hred]
          rcases List.infix_cons_iff.mp hin with hpre | hinr
          · have hc : c = '[' := by
              rcases hpre with ⟨t, ht⟩
              rw [PLACEHOLDER_chars] at ht
              injection ht with h1 _
              exact h1.symm
            subst hc
            rcases hpre with ⟨b, hb⟩
            have hbr : r = PLACEHOLDER.drop 1 ++ b := by
              rw [PLACEHOLDER_chars] at hb ⊢
              injection hb with _ h2
              rw [← h2]
              rfl
            have hfg : ∃ g, f = g + 16 := by
              refine ⟨f - 16, ?_⟩
              have hlen : r.length = 16 + b.length := by
                rw [hbr, PLACEHOLDER_chars]
                simp
                omega
              simp only [List.length_cons] at hs
              omega
            rcases hfg with ⟨g, rfl⟩
            have hT : (PLACEHOLDER.drop 1).length = 16 := by
              rw [PLACEHOLDER_chars]
              rfl
            have hcopy := redactGo_copy tm (PLACEHOLDER.drop 1) g (some '[') b
              (fun j hj => hfail (some '[') b j (by rw [hT] at hj; exact hj))
            rw [hT] at hcopy
            rw [hbr, hcopy]
            refine ⟨[], (redactGo tm g (lastOf (some '[') (PLACEHOLDER.drop 1)) b).1, ?_⟩
            rw [List.nil_append, ← List.cons_append]
            rw [PLACEHOLDER_chars]
            rfl
          · rcases ih (some c) r (by simp at hs; omega) hinr with ⟨x, y, hxy⟩
            exact ⟨c :: x, y, by rw [← hxy]; simp⟩
        · have hred : redactGo tm (f + 1) prev (c :: r) =
              (PLACEHOLDER ++ (redactGo tm f (((c :: r).take (m + 1)).getLast?)
                  ((c :: r).drop (m + 1))).1,
                (redactGo tm f (((c :: r).take (m + 1)).getLast?)
                  ((c :: r).drop (m + 1))).2 + 1) := by
            rw [redactGo, htm]
          rw [hred]
          refine ⟨[], (redactGo tm f (((c :: r).take (m + 1)).getLast?)
            ((c :: r).drop (m + 1))).1, ?_⟩
          simp

/-! ### No pattern matches inside the placeholder, for any following
text -/

theorem akiaFailsPH (p : Option Char) (b : List Char) (j : Nat) (hj : j < 16) :
    tryMatchAkia (lastOf p ((PLACEHOLDER.drop 1).take j))
      ((PLACEHOLDER.drop 1).drop j ++ b) = none := by
  interval_cases j <;> rfl

theorem aizaFailsPH (p : Option Char) (b : List Char) (j : Nat) (hj : j < 16) :
    tryMatchAiza (lastOf p ((PLACEHOLDER.drop 1).take j))
      ((PLACEHOLDER.drop 1).drop j ++ b) = none := by
  interval_cases j <;> rfl

theorem jwtFailsPH (p : Option Char) (b : List Char) (j : Nat) (hj : j < 16) :
    tryMatchJwt (lastOf p ((PLACEHOLDER.drop 1).take j))
      ((PLACEHOLDER.drop 1).drop j ++ b) = none := by
  interval_cases j
  · exact tryMatchJwt_short_run _ _ _ (runLen_lt_20_of_append
      ['R', 'E', 'D', 'A', 'C', 'T', 'E', 'D', '_', 'S', 'E', 'C', 'R', 'E', 'T', ']']
      b (by decide) (by decide))
  · exact tryMatchJwt_short_run _ _ _ (runLen_lt_20_of_append
      ['E', 'D', 'A', 'C', 'T', 'E', 'D', '_', 'S', 'E', 'C', 'R', 'E', 'T', ']']
      b (by decide) (by decide))
  · exact tryMatchJwt_short_run _ _ _ (runLen_lt_20_of_append
      ['D', 'A', 'C', 'T', 'E', 'D', '_', 'S', 'E', 'C', 'R', 'E', 'T', ']']
      b (by decide) (by decide))
  · exact tryMatchJwt_short_run _ _ _ (runLen_lt_20_of_append
      ['A', 'C', 'T', 'E', 'D', '_', 'S', 'E', 'C', 'R', 'E', 'T', ']']
      b (by decide) (by decide))
  · exact tryMatchJwt_short_run _ _ _ (runLen_lt_20_of_append
      ['C', 'T', 'E', 'D', '_', 'S', 'E', 'C', 'R', 'E', 'T', ']']
      b (by decide) (by decide))
  · exact tryMatchJwt_short_run _ _ _ (runLen_lt_20_of_append
      ['T', 'E', 'D', '_', 'S', 'E', 'C', 'R', 'E', 'T', ']']
      b (by decide) (by decide))
  · exact tryMatchJwt_short_run _ _ _ (runLen_lt_20_of_append
      ['E', 'D', '_', 'S', 'E', 'C', 'R', 'E', 'T', ']']
      b (by decide) (by decide))
  · exact tryMatchJwt_short_run _ _ _ (runLen_lt_20_of_append
      ['D', '_', 'S', 'E', 'C', 'R', 'E', 'T', ']']
      b (by decide) (by decide))
  · exact tryMatchJwt_short_run _ _ _ (runLen_lt_20_of_append
      ['_', 'S', 'E', 'C', 'R', 'E', 'T', ']']
      b (by decide) (by decide))
  · exact tryMatchJwt_short_run _ _ _ (runLen_lt_20_of_append
      ['S', 'E', 'C', 'R', 'E', 'T', ']']
      b (by decide) (by decide))
  · exact tryMatchJwt_short_run _ _ _ (runLen_lt_20_of_append
      ['E', 'C', 'R', 'E', 'T', ']']
      b (by decide) (by decide))
  · exact tryMatchJwt_short_run _ _ _ (runLen_lt_20_of_append
      ['C', 'R', 'E', 'T', ']']
      b (by decide) (by decide))
  · exact tryMatchJwt_short_run _ _ _ (runLen_lt_20_of_append
      ['R', 'E', 'T', ']']
      b (by decide) (by decide))
  · exact tryMatchJwt_short_run _ _ _ (runLen_lt_20_of_append
      ['E', 'T', ']']
      b (by decide) (by decide))
  · exact tryMatchJwt_short_run _ _ _ (runLen_lt_20_of_append
      ['T', ']']
      b (by decide) (by decide))
  · exact tryMatchJwt_short_run _ _ _ (runLen_lt_20_of_append
      [']']
      b (by decide) (by decide))

/-- A content with an sk-style key is redacted: the count is positive
and the placeholder appears in the final redacted text (surviving the
three later passes). -/
theorem redactSecrets_sk_redacts (c : String) (u rest : List Char)
    (hdec : c.data = u ++ 's' :: 'k' :: '-' :: rest)
    (hrun : 16 ≤ runLen isAlnumChar rest) :
    1 ≤ (redactSecrets c).count ∧
    PLACEHOLDER <:+: (redactSecrets c).redacted.data := by
  have hnoM : noM tryMatchSk none c.data = false := by
    rw [hdec]
    exact noM_false_of_match tryMatchSk 's' ('k' :: '-' :: rest) _
      (fun q => tryMatchSk_at q rest hrun) u none
  have h1 : 1 ≤ (redactPass tryMatchSk c.data).2 :=
    redactGo_count_pos tryMatchSk (fun p s n h => (tryMatchSk_pos_le p s n h).1)
      c.data.length none c.data (le_refl _) hnoM
  have hinf1 : PLACEHOLDER <:+: (redactPass tryMatchSk c.data).1 :=
    redactGo_ph_infix tryMatchSk c.data.length none c.data h1
  have hinf2 : PLACEHOLDER <:+:
      (redactPass tryMatchAkia (redactPass tryMatchSk c.data).1).1 :=
    redactGo_ph_preserved tryMatchAkia akiaFailsPH
      (redactPass tryMatchSk c.data).1.length none _ (le_refl _) hinf1
  have hinf3 : PLACEHOLDER <:+:
      (redactPass tryMatchAiza
        (redactPass tryMatchAkia (redactPass tryMatchSk c.data).1).1).1 :=
    redactGo_ph_preserved tryMatchAiza aizaFailsPH
      (redactPass tryMatchAkia (redactPass tryMatchSk c.data).1).1.length
      none _ (le_refl _) hinf2
  have hinf4 : PLACEHOLDER <:+:
      (redactPass tryMatchJwt (redactPass tryMatchAiza
        (redactPass tryMatchAkia (redactPass tryMatchSk c.data).1).1).1).1 :=
    redactGo_ph_preserved tryMatchJwt jwtFailsPH
      (redactPass tryMatchAiza
        (redactPass tryMatchAkia (redactPass tryMatchSk c.data).1).1).1.length
      none _ (le_refl _) hinf3
  have hcount : (redactSecrets c).count =
      (redactPass tryMatchSk c.data).2 +
        (redactPass tryMatchAkia (redactPass tryMatchSk c.data).1).2 +
        (redactPass tryMatchAiza
          (redactPass tryMatchAkia (redactPass tryMatchSk c.data).1).1).2 +
        (redactPass tryMatchJwt (redactPass tryMatchAiza
          (redactPass tryMatchAkia (redactPass tryMatchSk c.data).1).1).1).2 := rfl
  have hred : (redactSecrets c).redacted.data =
      (redactPass tryMatchJwt (redactPass tryMatchAiza
        (redactPass tryMatchAkia (redactPass tryMatchSk c.data).1).1).1).1 := rfl
  constructor
  · rw [hcount]
    omega
  · rw [hred]
    exact hinf4

/-! ### The redaction map and totals inside formatOutput -/

theorem mapGetS_mapSetS_self : ∀ (m : List (String × String)) (k v : String),
    mapGetS (mapSetS m k v) k = some v := by
  intro m
  induction m with
  | nil => intro k v; simp [mapSetS, mapGetS]
  | cons e r ih =>
    intro k v
    rw [mapSetS]
    by_cases he : (e.1 == k) = true
    · rw [if_pos he]
      simp [mapGetS]
    · rw [if_neg he]
      rw [mapGetS, if_neg (by simpa using he)]
      exact ih k v

theorem mapGetS_mapSetS_ne : ∀ (m : List (String × String)) (k v kq : String),
    kq ≠ k → mapGetS (mapSetS m k v) kq = mapGetS m kq := by
  intro m
  induction m with
  | nil =>
    intro k v kq hne
    rw [mapSetS, mapGetS, mapGetS, if_neg (by simpa using Ne.symm hne)]
    rfl
  | cons e r ih =>
    intro k v kq hne
    rw [mapSetS]
    by_cases he : (e.1 == k) = true
    · rw [if_pos he]
      rw [mapGetS, mapGetS, if_neg (by simpa using Ne.symm hne)]
      have he' : e.1 = k := by simpa using he
      rw [if_neg (by simp [he']; exact Ne.symm hne)]
    · rw [if_neg he]
      rw [mapGetS, mapGetS]
      by_cases hq : (e.1 == kq) = true
      · rw [if_pos hq, if_pos hq]
      · rw [if_neg hq, if_neg hq]
        exact ih k v kq hne

theorem foldl_redStep_preserve : ∀ (l : List ScannedFile)
    (acc : List (String × String) × Nat) (k : String),
    (∀ g ∈ l, g.path ≠ k) →
    mapGetS (l.foldl redStep acc).1 k = mapGetS acc.1 k := by
  intro l
  induction l with
  | nil => intro acc k _; rfl
  | cons g r ih =>
    intro acc k hk
    rw [List.foldl_cons]
    rw [ih (redStep acc g) k (fun x hx => hk x (List.mem_cons_of_mem g hx))]
    rw [redStep]
    by_cases hu : hasUsableContent g = true
    · rw [if_pos hu]
      exact mapGetS_mapSetS_ne acc.1 g.path _ k
        (fun h => hk g (List.mem_cons_self g r) h.symm)
    · rw [if_neg hu]

theorem foldl_redStep_get : ∀ (l : List ScannedFile)
    (acc : List (String × String) × Nat) (f : ScannedFile),
    f ∈ l → hasUsableContent f = true → (l.map ScannedFile.path).Nodup →
    mapGetS (l.foldl redStep acc).1 f.path =
      some (redactSecrets (f.content.getD "")).redacted := by
  intro l
  induction l with
  | nil => intro acc f hf _ _; cases hf
  | cons g r ih =>
    intro acc f hf hu hnd
    rw [List.map_cons, List.nodup_cons] at hnd
    rw [List.foldl_cons]
    rcases List.mem_cons.mp hf with rfl | hfr
    · rw [foldl_redStep_preserve r (redStep acc f) f.path
        (fun x hx hpx => hnd.1 (hpx ▸ List.mem_map_of_mem ScannedFile.path hx))]
      rw [redStep, if_pos hu]
      exact mapGetS_mapSetS_self acc.1 f.path _
    · exact ih (redStep acc g) f hfr hu hnd.2

theorem foldl_redStep_count_mono : ∀ (l : List ScannedFile)
    (acc : List (String × String) × Nat), acc.2 ≤ (l.foldl redStep acc).2 := by
  intro l
  induction l with
  | nil => intro acc; exact le_refl _
  | cons g r ih =>
    intro acc
    rw [List.foldl_cons]
    refine le_trans ?_ (ih (redStep acc g))
    rw [redStep]
    by_cases hu : hasUsableContent g = true
    · rw [if_pos hu]
      exact Nat.le_add_right _ _
    · rw [if_neg hu]

theorem foldl_redStep_count_ge : ∀ (l : List ScannedFile)
    (acc : List (String × String) × Nat) (f : ScannedFile),
    f ∈ l → hasUsableContent f = true →
    (redactSecrets (f.content.getD "")).count ≤ (l.foldl redStep acc).2 := by
  intro l
  induction l with
  | nil => intro acc f hf _; cases hf
  | cons g r ih =>
    intro acc f hf hu
    rw [List.foldl_cons]
    rcases List.mem_cons.mp hf with rfl | hfr
    · refine le_trans ?_ (foldl_redStep_count_mono r (redStep acc f))
      rw [redStep, if_pos hu]
      exact Nat.le_add_left _ _
    · exact ih (redStep acc g) f hfr hu

/-! ### Membership gives substring of the joined document -/

theorem infix_append_right (y : List Char) (t z : List Char) (h : t <:+: z) :
    t <:+: y ++ z := by
  rcases h with ⟨a, b, hab⟩
  exact ⟨y ++ a, b, by rw [← hab]; simp⟩

theorem joinNl_infix : ∀ (parts : List String) (x : String), x ∈ parts →
    x.data <:+: (joinNl parts).data := by
  intro parts
  induction parts with
  | nil => intro x hx; cases hx
  | cons p r ih =>
    intro x hx
    cases r with
    | nil =>
      have hxp : x = p := by simpa using hx
      subst hxp
      exact List.infix_refl _
    | cons q r' =>
      rcases List.mem_cons.mp hx with rfl | hx'
      · refine ⟨[], ("\n" ++ joinNl (q :: r')).data, ?_⟩
        show [] ++ x.data ++ ("\n" ++ joinNl (q :: r')).data =
          (x ++ "\n" ++ joinNl (q :: r')).data
        simp [String.data_append]
      · have hsub := ih x hx'
        have : x.data <:+: ((p ++ "\n").data ++ (joinNl (q :: r')).data) :=
          infix_append_right _ _ _ hsub
        have hj : (joinNl (p :: q :: r')).data =
            (p ++ "\n").data ++ (joinNl (q :: r')).data := by
          show (p ++ "\n" ++ joinNl (q :: r')).data = _
          simp [String.data_append]
        rw [hj]
        exact this

theorem mdSection_usable (rdp : List (String × String)) (f : ScannedFile)
    (hu : hasUsableContent f = true) :
    mdSection rdp f =
      ["## " ++ f.path ++ " \x7b#" ++ slugifyHeading f.path ++ "\x7d", "",
        (match inferLanguage f.path with
          | some l => "```" ++ l
          | none => "```"),
        (mapGetS rdp f.path).getD (f.content.getD ""), "```", ""] := by
  rw [mdSection]
  rw [if_neg (by simp [hu])]

theorem safety_line_mem (options : FormatOptions) (totalFiles totalTokens : Nat)
    (techStack : List String) (n : Nat) (hn : 0 < n) :
    ("Safety: " ++ toString n ++ " secrets were detected and automatically redacted.")
      ∈ headerLines options totalFiles totalTokens techStack n := by
  rw [headerLines]
  refine List.mem_append.mpr (Or.inr ?_)
  rw [if_pos hn]
  exact List.mem_singleton.mpr rfl

/-- A markdown part is a substring of the markdown document. -/
theorem formatOutput_md_infix (encode : String → Nat)
    (parseTech : String → List String) (files : List ScannedFile)
    (options : FormatOptions) (hfmt : options.format = OutputFormat.markdown)
    (x : String)
    (hx : x ∈ mdParts options (sortByPath files)
      (buildRedactedByPath (sortByPath files)).1
      (renderTreeOf (sortByPath files))
      (joinNl (headerLines options (sortByPath files).length
        (computeFileTokenStats encode (sortByPath files)
          (buildRedactedByPath (sortByPath files)).1).2
        (techStackOf parseTech (sortByPath files))
        (buildRedactedByPath (sortByPath files)).2))) :
    x.data <:+: ((formatOutput encode parseTech files options).output).data := by
  rcases options with ⟨fmt, rootDir, persona, task⟩
  simp only at hfmt
  subst hfmt
  exact joinNl_infix _ x hx

/-- C7: a file whose content contains an OpenAI-style key (`sk-`
followed by at least 16 alphanumerics) is redacted — the count is
positive and the placeholder appears in the redacted text — and the
markdown document contains the file's heading, the file's redacted
content, and a safety line reporting at least one redaction. -/
theorem formatOutput_redacts_sk (encode : String → Nat)
    (parseTech : String → List String) (files : List ScannedFile)
    (rootDir : String) (persona : Option PersonaType) (task : Option String)
    (f : ScannedFile) (c : String) (u rest : List Char)
    (hf : f ∈ files) (hnd : (files.map ScannedFile.path).Nodup)
    (hc : f.content = some c) (hbin : f.isBinary = false)
    (hov : f.isOversized = false)
    (hdec : c.data = u ++ 's' :: 'k' :: '-' :: rest)
    (hrun : 16 ≤ runLen isAlnumChar rest) :
    1 ≤ (redactSecrets c).count ∧
    PLACEHOLDER <:+: (redactSecrets c).redacted.data ∧
    ("## " ++ f.path ++ " \x7b#" ++ slugifyHeading f.path ++ "\x7d").data <:+:
      ((formatOutput encode parseTech files
        ⟨OutputFormat.markdown, rootDir, persona, task⟩).output).data ∧
    (redactSecrets c).redacted.data <:+:
      ((formatOutput encode parseTech files
        ⟨OutputFormat.markdown, rootDir, persona, task⟩).output).data ∧
    ∃ n, 1 ≤ n ∧
      ("Safety: " ++ toString n ++
        " secrets were detected and automatically redacted.").data <:+:
      ((formatOutput encode parseTech files
        ⟨OutputFormat.markdown, rootDir, persona, task⟩).output).data := by
  have husable : hasUsableContent f = true := by
    rw [hasUsableContent, hc, hbin, hov]
    simp [hdec]
  have hsk := redactSecrets_sk_redacts c u rest hdec hrun
  have hperm := List.perm_insertionSort pathLe files
  have hfs : f ∈ sortByPath files := hperm.mem_iff.mpr hf
  have hnds : ((sortByPath files).map ScannedFile.path).Nodup :=
    ((hperm.map ScannedFile.path).nodup_iff).mpr hnd
  have hget : mapGetS (buildRedactedByPath (sortByPath files)).1 f.path =
      some (redactSecrets c).redacted := by
    have hg := foldl_redStep_get (sortByPath files) ([], 0) f hfs husable hnds
    rw [hc] at hg
    exact hg
  have hsec := mdSection_usable (buildRedactedByPath (sortByPath files)).1 f husable
  have hhead_mem : ("## " ++ f.path ++ " \x7b#" ++ slugifyHeading f.path ++ "\x7d")
      ∈ mdSection (buildRedactedByPath (sortByPath files)).1 f := by
    rw [hsec]
    exact List.mem_cons_self _ _
  have hbody_mem : (redactSecrets c).redacted
      ∈ mdSection (buildRedactedByPath (sortByPath files)).1 f := by
    rw [hsec]
    have hgd : (mapGetS (buildRedactedByPath (sortByPath files)).1 f.path).getD
        (f.content.getD "") = (redactSecrets c).redacted := by
      rw [hget]
      rfl
    rw [hgd]
    simp
  have hmem_parts : ∀ x, x ∈ mdSection (buildRedactedByPath (sortByPath files)).1 f →
      x ∈ mdParts ⟨OutputFormat.markdown, rootDir, persona, task⟩ (sortByPath files)
        (buildRedactedByPath (sortByPath files)).1
        (renderTreeOf (sortByPath files))
        (joinNl (headerLines ⟨OutputFormat.markdown, rootDir, persona, task⟩
          (sortByPath files).length
          (computeFileTokenStats encode (sortByPath files)
            (buildRedactedByPath (sortByPath files)).1).2
          (techStackOf parseTech (sortByPath files))
          (buildRedactedByPath (sortByPath files)).2)) := by
    intro x hx
    have hflat : x ∈ (sortByPath files).flatMap
        (mdSection (buildRedactedByPath (sortByPath files)).1) :=
      List.mem_flatMap.mpr ⟨f, hfs, hx⟩
    rw [mdParts]
    simp only [List.mem_append]
    tauto
  have hcount_ge : 1 ≤ (buildRedactedByPath (sortByPath files)).2 := by
    have hg := foldl_redStep_count_ge (sortByPath files) ([], 0) f hfs husable
    rw [hc] at hg
    exact le_trans hsk.1 hg
  have hheader_in_parts :
      joinNl (headerLines ⟨OutputFormat.markdown, rootDir, persona, task⟩
          (sortByPath files).length
          (computeFileTokenStats encode (sortByPath files)
            (buildRedactedByPath (sortByPath files)).1).2
          (techStackOf parseTech (sortByPath files))
          (buildRedactedByPath (sortByPath files)).2)
      ∈ mdParts ⟨OutputFormat.markdown, rootDir, persona, task⟩ (sortByPath files)
        (buildRedactedByPath (sortByPath files)).1
        (renderTreeOf (sortByPath files))
        (joinNl (headerLines ⟨OutputFormat.markdown, rootDir, persona, task⟩
          (sortByPath files).length
          (computeFileTokenStats encode (sortByPath files)
            (buildRedactedByPath (sortByPath files)).1).2
          (techStackOf parseTech (sortByPath files))
          (buildRedactedByPath (sortByPath files)).2)) := by
    rw [mdParts]
    simp
  refine ⟨hsk.1, hsk.2, ?_, ?_,
    ⟨(buildRedactedByPath (sortByPath files)).2, hcount_ge, ?_⟩⟩
  · exact formatOutput_md_infix encode parseTech files _ rfl _
      (hmem_parts _ hhead_mem)
  · exact formatOutput_md_infix encode parseTech files _ rfl _
      (hmem_parts _ hbody_mem)
  · have hsafe := safety_line_mem ⟨OutputFormat.markdown, rootDir, persona, task⟩
      (sortByPath files).length
      (computeFileTokenStats encode (sortByPath files)
        (buildRedactedByPath (sortByPath files)).1).2
      (techStackOf parseTech (sortByPath files))
      (buildRedactedByPath (sortByPath files)).2 hcount_ge
    have h1 := joinNl_infix _ _ hsafe
    have h2 := formatOutput_md_infix encode parseTech files _ rfl _ hheader_in_parts
    exact h1.trans h2

/-- Witness for C7 at a one-file project whose content is an sk-key. -/
theorem formatOutput_redacts_sk_witness :
    1 ≤ (redactSecrets "sk-abcdefgh12345678").count ∧
    PLACEHOLDER <:+: (redactSecrets "sk-abcdefgh12345678").redacted.data ∧
    ("## " ++ (⟨"a.ts", 19, false, false, some "sk-abcdefgh12345678"⟩ : ScannedFile).path
        ++ " \x7b#" ++ slugifyHeading
          (⟨"a.ts", 19, false, false, some "sk-abcdefgh12345678"⟩ : ScannedFile).path
        ++ "\x7d").data <:+:
      ((formatOutput (fun s => s.length) (fun _ => [])
        [⟨"a.ts", 19, false, false, some "sk-abcdefgh12345678"⟩]
        ⟨OutputFormat.markdown, "r", none, none⟩).output).data ∧
    (redactSecrets "sk-abcdefgh12345678").redacted.data <:+:
      ((formatOutput (fun s => s.length) (fun _ => [])
        [⟨"a.ts", 19, false, false, some "sk-abcdefgh12345678"⟩]
        ⟨OutputFormat.markdown, "r", none, none⟩).output).data ∧
    ∃ n, 1 ≤ n ∧
      ("Safety: " ++ toString n ++
        " secrets were detected and automatically redacted.").data <:+:
      ((formatOutput (fun s => s.length) (fun _ => [])
        [⟨"a.ts", 19, false, false, some "sk-abcdefgh12345678"⟩]
        ⟨OutputFormat.markdown, "r", none, none⟩).output).data :=
  formatOutput_redacts_sk (fun s => s.length) (fun _ => [])
    [⟨"a.ts", 19, false, false, some "sk-abcdefgh12345678"⟩] "r" none none
    ⟨"a.ts", 19, false, false, some "sk-abcdefgh12345678"⟩
    "sk-abcdefgh12345678" [] "abcdefgh12345678".data
    (by decide) (by decide) rfl rfl rfl rfl (by decide)

end Epistle
